import Mathlib

/-!
Verification development for the timetrax interval-fold and closure-construction
algorithm (`src/data/activity_closure.rs`, with supporting data model from
`src/data/interval.rs`, `src/data/job_config.rs`, `src/data/activity_class.rs`,
`src/data/identifier.rs`).

Modelling choices:
* `time::Time` (a bounded time-of-day with a maximum value `Time::MAX`) is
  modelled as `Fin 86400` (seconds of a day); only its linear order and the
  existence of a greatest element matter to the algorithm.
* `Uuid` values are modelled as `Nat`.  `Uuid::new_v4()` (a fresh random
  identity for each synthesized segment, with no stability contract) is
  modelled as the constant `0`; the `id` field of produced segments carries no
  information in this model.
* Rust's `BinaryHeap` with the reversed end-time ordering is modelled as a
  list kept sorted by effective end time ascending (`peek`/`pop` work on the
  head, which is the minimum, matching the heap contract); heap iteration
  order, which Rust leaves unspecified, is modelled as this sorted order.
* `Vec::sort`/`sort_by` (stable sorts) are modelled with `List.insertionSort`,
  which is stable.
* Logging (`error!`, `trace!`) has no observable effect and is dropped.
-/

namespace Timetrax

/-- Time-of-day, a bounded linear order.  `time::Time` from the `time` crate. -/
abbrev Time := Fin 86400

/-- `time::Time::MAX`, the greatest representable time of day. -/
def timeMax : Time := ⟨86399, by decide⟩

/-- `Interval` from `src/data/interval.rs`: a time interval, possibly open-ended. -/
structure Interval where
  start : Time
  end_ : Option Time
deriving DecidableEq, Repr

/-- `Interval::end_time_or_end_of_day`: the end, or `Time::MAX` if open-ended. -/
def Interval.end_time_or_end_of_day (i : Interval) : Time :=
  i.end_.getD timeMax

/-- `Interval::is_complete`: whether the interval has an end. -/
def Interval.is_complete (i : Interval) : Bool :=
  i.end_.isSome

/-- `Identifier` from `src/data/identifier.rs`: a reference by uuid or by name. -/
inductive Identifier where
  | uuid (id : Nat)
  | byName (name : String)
deriving DecidableEq, Repr

/-- Boolean rendering of the `Ord` derived on `Identifier` in Rust
(variant order first: `Uuid < ByName`; then the payloads). -/
def Identifier.leb : Identifier → Identifier → Bool
  | .uuid a, .uuid b => decide (a ≤ b)
  | .uuid _, .byName _ => true
  | .byName _, .uuid _ => false
  | .byName a, .byName b => decide (a ≤ b)

/-- `ActivityClassInner` from `src/data/activity_class.rs`. -/
structure ActivityClassInner where
  name : String
  priority : Int
  description : Option String
deriving DecidableEq, Repr

/-- `ActivityClass` from `src/data/activity_class.rs`. -/
structure ActivityClass where
  id : Nat
  inner : ActivityClassInner
deriving DecidableEq, Repr

/-- `ActivityClass::identifier_matches`. -/
def ActivityClass.identifier_matches (c : ActivityClass) (identifier : Identifier) : Bool :=
  match identifier with
  | .uuid id => c.id == id
  | .byName name => c.inner.name == name

/-- `JobConfig` from `src/data/job_config.rs` (the `projects` field is not
read by the closure algorithm and is omitted). -/
structure JobConfig where
  classes : List ActivityClass
deriving DecidableEq, Repr

/-- The `DUMMY_ACTIVITY_CLASS` static from `src/data/job_config.rs`. -/
def DUMMY_ACTIVITY_CLASS : ActivityClass :=
  { id := 0
    inner := { priority := 0, name := "<UNDEFINED>"
               description := some "No classes specified in job config. Using a dummy class." } }

/-- `JobConfig::lowest_priority_class`: `min_by` on priority (Rust's `min_by`
keeps the first of equally-minimal elements), falling back to the dummy class
when the registry is empty. -/
def JobConfig.lowest_priority_class (cfg : JobConfig) : ActivityClass :=
  match cfg.classes.foldl
      (fun acc c =>
        match acc with
        | none => some c
        | some m => if c.inner.priority < m.inner.priority then some c else some m)
      none with
  | some c => c
  | none => DUMMY_ACTIVITY_CLASS

/-- `JobConfig::resolve_class`: first class matching the identifier. -/
def JobConfig.resolve_class (cfg : JobConfig) (identifier : Identifier) : Option ActivityClass :=
  cfg.classes.find? (fun c => c.identifier_matches identifier)

/-- `Activity` as used by `src/data/activity_closure.rs`: id, optional display
name, a classification reference, a time interval, and project references. -/
structure Activity where
  id : Nat
  name : Option String
  class_ : Identifier
  time : Interval
  projects : List Identifier
deriving DecidableEq, Repr

/-- The class a contributor's reference resolves to inside `fold_inner`:
`resolve_class(..).unwrap_or_else(|| lowest_priority_class())`. -/
def resolved_class (cfg : JobConfig) (a : Activity) : ActivityClass :=
  (cfg.resolve_class a.class_).getD cfg.lowest_priority_class

/-- Accumulator of the contributor loop in `Activity::fold_inner`. -/
structure FoldAcc where
  start_time : Option Time
  end_time : Option Time
  cls : ActivityClass
  names : List String
  projects : List Identifier

/-- One iteration of the contributor loop in `Activity::fold_inner`
(`src/data/activity_closure.rs` lines 31-64), translated literally.  Note the
running minimum of end times is computed and then unconditionally overwritten
by the current contributor's end, exactly as in the source. -/
def fold_step (cfg : JobConfig) (acc : FoldAcc) (a : Activity) : FoldAcc :=
  let start_time :=
    match acc.start_time with
    | none => some a.time.start
    | some s => if a.time.start > s then some a.time.start else some s
  let _end_running_min :=
    match acc.end_time, a.time.end_ with
    | some e, some ae => if ae < e then some ae else some e
    | x, _ => x
  let end_time := a.time.end_
  let activity_class := (cfg.resolve_class a.class_).getD cfg.lowest_priority_class
  let cls := if activity_class.inner.priority > acc.cls.inner.priority then activity_class else acc.cls
  let names :=
    match a.name with
    | some n => if acc.names.contains n then acc.names else acc.names ++ [n]
    | none => acc.names
  let projects := acc.projects ++ a.projects
  ⟨start_time, end_time, cls, names, projects⟩

/-- The lower-bound clamp of `fold_inner`: raise the merged start to the
limit when it is below it. -/
def clamp_start (st : Time) (limit : Option Time) : Time :=
  match limit with
  | some l => if st < l then l else st
  | none => st

/-- The upper-bound clamp of `fold_inner`: lower the merged end to the limit,
or set it when previously undefined. -/
def clamp_end (en : Option Time) (limit : Option Time) : Option Time :=
  match limit with
  | some l =>
      match en with
      | some e => some (if e > l then l else e)
      | none => some l
  | none => en

/-- Relation used to sort merged names: lexicographic string order. -/
def strLe (a b : String) : Prop := a ≤ b

instance : DecidableRel strLe := fun a b => inferInstanceAs (Decidable (a ≤ b))

instance : IsTotal String strLe := ⟨fun a b => le_total a b⟩

instance : IsTrans String strLe := ⟨fun _ _ _ h h' => le_trans h h'⟩

/-- Relation used to sort merged projects: the derived `Ord` on `Identifier`. -/
def idLe (a b : Identifier) : Prop := Identifier.leb a b = true

instance : DecidableRel idLe := fun a b => inferInstanceAs (Decidable (Identifier.leb a b = true))

instance : IsTotal Identifier idLe := by
  constructor
  intro a b
  cases a <;> cases b <;> simp [idLe, Identifier.leb] <;> exact le_total _ _

instance : IsTrans Identifier idLe := by
  constructor
  intro a b c hab hbc
  cases a <;> cases b <;> cases c <;>
    simp_all [idLe, Identifier.leb] <;> exact le_trans hab hbc

/-- Builds the synthesized output activity of `fold_inner`
(`src/data/activity_closure.rs` lines 89-105): sort names and projects, join
names with "; ", reference the chosen class by uuid, fresh identity. -/
def mkFolded (cls : ActivityClass) (names : List String) (projects : List Identifier)
    (start : Time) (end_ : Option Time) : Activity :=
  let names := names.insertionSort strLe
  let projects := projects.insertionSort idLe
  { id := 0
    name := if names.length == 0 then none else some (String.intercalate "; " names)
    class_ := .uuid cls.id
    time := { start := start, end_ := end_ }
    projects := projects }

/-- `Activity::fold_inner` from `src/data/activity_closure.rs`: fold a
collection of contributing activities into one merged activity, clamped to the
optional bounds; `none` when there are no contributors or the clamped interval
is inverted. -/
def Activity.fold_inner (cfg : JobConfig) (activities : List Activity)
    (start_time_limit end_time_limit : Option Time) : Option Activity :=
  let acc := activities.foldl (fold_step cfg) ⟨none, none, cfg.lowest_priority_class, [], []⟩
  match acc.start_time with
  | none => none
  | some st0 =>
    let start_time := clamp_start st0 start_time_limit
    let end_time := clamp_end acc.end_time end_time_limit
    match end_time with
    | some e =>
        if start_time > e then none
        else some (mkFolded acc.cls acc.names acc.projects start_time (some e))
    | none => some (mkFolded acc.cls acc.names acc.projects start_time none)

/-- Effective end of an activity (`self.time.end_time_or_end_of_day()`). -/
def effend (a : Activity) : Time :=
  a.time.end_time_or_end_of_day

/-- Comparison used to sort the day's activities: ascending start time
(`activities.sort_by(|a, b| a.time.start.cmp(&b.time.start))`). -/
def startLe (a b : Activity) : Prop := a.time.start ≤ b.time.start

instance : DecidableRel startLe := fun a b => inferInstanceAs (Decidable (a.time.start ≤ b.time.start))

instance : IsTotal Activity startLe := ⟨fun a b => le_total a.time.start b.time.start⟩

instance : IsTrans Activity startLe := ⟨fun _ _ _ h h' => le_trans h h'⟩

/-- Ordering of the activity stack: the `BinaryHeap<ActivitySortByEndTime>`
keeps the activity with the least effective end time on top; modelled as a
list sorted ascending by effective end. -/
def endLe (a b : Activity) : Prop := effend a ≤ effend b

instance : DecidableRel endLe := fun a b => inferInstanceAs (Decidable (effend a ≤ effend b))

instance : IsTotal Activity endLe := ⟨fun a b => le_total (effend a) (effend b)⟩

instance : IsTrans Activity endLe := ⟨fun _ _ _ h h' => le_trans h h'⟩

/-- The `fold_report` helper nested in `calculate_activity_closure`: fold the
current stack and open-ended activities, and drop the result when it has zero
duration (start equal to effective end).  The error/trace logging on a failed
fold has no observable effect. -/
def fold_report (cfg : JobConfig) (stack open_ended : List Activity)
    (start_time end_time : Option Time) : Option Activity :=
  match Activity.fold_inner cfg (stack ++ open_ended) start_time end_time with
  | some folded =>
      if folded.time.start = folded.time.end_time_or_end_of_day then none
      else some folded
  | none => none

/-- State of the sweep in `calculate_activity_closure`. -/
structure SweepState where
  stack : List Activity
  open_ended : List Activity
  last_activity_end : Option Time
  closure : List Activity

/-- The inner `while let Some(top_activity) = activity_stack.peek()` loop of
`calculate_activity_closure`: while the top of the stack ends at or before
`cutoff` (the start of the activity being processed), emit a fold of the
current active set up to the top's effective end, advance
`last_activity_end`, and pop.  Returns the remaining stack, the updated
cursor, and the extended closure. -/
def drainLoop (cfg : JobConfig) (cutoff : Time) (open_ended : List Activity) :
    List Activity → Option Time → List Activity →
    List Activity × Option Time × List Activity
  | [], last, closure => ([], last, closure)
  | top :: rest, last, closure =>
      if effend top ≤ cutoff then
        let closure := closure ++
          (fold_report cfg (top :: rest) open_ended last (some (effend top))).toList
        drainLoop cfg cutoff open_ended rest (some (effend top)) closure
      else (top :: rest, last, closure)

/-- Processing of one activity in the main loop of
`calculate_activity_closure`: drain the stack up to the activity's start,
emit a fold of the active set up to that start, then push the activity onto
the stack (if closed) or the open-ended list (if open). -/
def processActivity (cfg : JobConfig) (st : SweepState) (a : Activity) : SweepState :=
  match drainLoop cfg a.time.start st.open_ended st.stack st.last_activity_end st.closure with
  | (stack, last, closure) =>
    let closure := closure ++
      (fold_report cfg stack st.open_ended last (some a.time.start)).toList
    if a.time.is_complete then
      { stack := stack.orderedInsert endLe a
        open_ended := st.open_ended
        last_activity_end := last
        closure := closure }
    else
      { stack := stack
        open_ended := st.open_ended ++ [a]
        last_activity_end := last
        closure := closure }

/-- The final `while let Some(activity) = activity_stack.peek()` drain of
`calculate_activity_closure`: pop every remaining stack entry, emitting a
fold of the active set up to the popped activity's `end` each time. -/
def finalDrain (cfg : JobConfig) (open_ended : List Activity) :
    List Activity → Option Time → List Activity → Option Time × List Activity
  | [], last, closure => (last, closure)
  | top :: rest, last, closure =>
      let closure := closure ++
        (fold_report cfg (top :: rest) open_ended last top.time.end_).toList
      finalDrain cfg open_ended rest (some (effend top)) closure

/-- The sweep of `calculate_activity_closure` before any window clamping:
sort by start time, run the main loop, drain the stack, and emit one final
unbounded fold when open-ended activities remain. -/
def sweepRun (cfg : JobConfig) (activities : List Activity) : List Activity :=
  let sorted := activities.insertionSort startLe
  let st := sorted.foldl (processActivity cfg) ⟨[], [], none, []⟩
  match finalDrain cfg st.open_ended st.stack st.last_activity_end st.closure with
  | (last, closure) =>
    if st.open_ended.length > 0 then
      closure ++ (fold_report cfg [] st.open_ended last none).toList
    else closure

/-- The start-bound block of the window clamp
(`src/data/activity_closure.rs` lines 324-332): drop the segment when its
effective end is before the bound, raise its start to the bound when it
straddles it. -/
def clampStartStage (start? : Option Time) (a : Activity) : Option Activity :=
  match start? with
  | some s =>
      if a.time.end_time_or_end_of_day < s then none
      else if a.time.start < s ∧ a.time.end_time_or_end_of_day > s then
        some { a with time := { a.time with start := s } }
      else some a
  | none => some a

/-- The end-bound block of the window clamp
(`src/data/activity_closure.rs` lines 333-341): drop the segment when it
starts at or after the bound, lower its end to the bound when it straddles
it. -/
def clampEndStage (end? : Option Time) (a : Activity) : Option Activity :=
  match end? with
  | some e =>
      if a.time.start ≥ e then none
      else if a.time.end_time_or_end_of_day > e ∧ a.time.start < e then
        some { a with time := { a.time with end_ := some e } }
      else some a
  | none => some a

/-- The window clamp applied to one emitted segment: the start block runs
first, then the end block on its result; `none` models `continue` (the
segment is dropped). -/
def clampOne (start? end? : Option Time) (a : Activity) : Option Activity :=
  (clampStartStage start? a).bind (clampEndStage end?)

/-- The window-clamp pass over the whole closure. -/
def clampClosure (start? end? : Option Time) (closure : List Activity) : List Activity :=
  closure.filterMap (clampOne start? end?)

/-- The `if let (Some(start), Some(end)) = ... if start >= end` early return. -/
def earlyEmpty : Option Time → Option Time → Bool
  | some s, some e => decide (s ≥ e)
  | _, _ => false

/-- `Activity::calculate_activity_closure` from
`src/data/activity_closure.rs`: the full closure construction, including the
early-empty check and the optional window clamp. -/
def Activity.calculate_activity_closure (cfg : JobConfig) (activities : List Activity)
    (start stop : Option Time) : List Activity :=
  if earlyEmpty start stop then []
  else
    let closure := sweepRun cfg activities
    if start.isNone && stop.isNone then closure
    else clampClosure start stop closure

/-! ### Specification-level predicates -/

/-- An activity is well-formed when its start does not exceed its effective
end; the spec expects this of input data but the code does not enforce it. -/
def WFa (a : Activity) : Prop := a.time.start ≤ effend a

/-- A segment with positive duration. -/
def Good (c : Activity) : Prop := c.time.start < effend c

/-- Non-overlap of two segments in sequence: the first ends (effectively)
no later than the second starts. -/
def Rsep (x y : Activity) : Prop := effend x ≤ y.time.start

/-- Strict ordering of segments by start time. -/
def startLt (x y : Activity) : Prop := x.time.start < y.time.start

/-- `a` is active during (overlaps) the span of segment `seg`. -/
def activeDuring (a seg : Activity) : Prop :=
  a.time.start < effend seg ∧ seg.time.start < effend a

/-- The priority a classification reference resolves to, with unresolvable
references counting as the registry's lowest priority. -/
def resolvedPrio (cfg : JobConfig) (i : Identifier) : Int :=
  ((cfg.resolve_class i).getD cfg.lowest_priority_class).inner.priority

instance : DecidablePred WFa :=
  fun a => inferInstanceAs (Decidable (a.time.start ≤ effend a))

instance : DecidablePred Good :=
  fun a => inferInstanceAs (Decidable (a.time.start < effend a))

instance : DecidableRel Rsep :=
  fun a b => inferInstanceAs (Decidable (effend a ≤ b.time.start))

instance : DecidableRel startLt :=
  fun a b => inferInstanceAs (Decidable (a.time.start < b.time.start))

instance (a seg : Activity) : Decidable (activeDuring a seg) :=
  inferInstanceAs (Decidable (a.time.start < effend seg ∧ seg.time.start < effend a))

/-! ### Components of the fold accumulator -/

/-- The start-time component of the `fold_inner` loop: running maximum. -/
def startAccF (l : List Activity) (o : Option Time) : Option Time :=
  l.foldl
    (fun o a =>
      match o with
      | none => some a.time.start
      | some s => if a.time.start > s then some a.time.start else some s)
    o

/-- The end-time component of the `fold_inner` loop: because of the
unconditional overwrite in the source, this is just the last contributor's
end. -/
def endAccF (l : List Activity) (o : Option Time) : Option Time :=
  l.foldl (fun _ a => a.time.end_) o

/-- The class component of the `fold_inner` loop: running maximum priority
(first encountered wins ties). -/
def clsAccF (cfg : JobConfig) (l : List Activity) (c : ActivityClass) : ActivityClass :=
  l.foldl
    (fun c a =>
      if (resolved_class cfg a).inner.priority > c.inner.priority then resolved_class cfg a
      else c)
    c

/-- The names component of the `fold_inner` loop: first occurrences kept. -/
def namesAccF (l : List Activity) (ns : List String) : List String :=
  l.foldl
    (fun ns a =>
      match a.name with
      | some n => if ns.contains n then ns else ns ++ [n]
      | none => ns)
    ns

/-- The projects component of the `fold_inner` loop: plain concatenation. -/
def projAcc (l : List Activity) : List Identifier :=
  l.foldr (fun a r => a.projects ++ r) []

/-- Modelled from the spec: the merged end as §4.1 step 2 describes it — the
minimum defined end among contributors that have one, `none` when no
contributor has a defined end.  (The source instead keeps the last-iterated
contributor's end; see `fold_step`.) -/
def specMergedEnd (l : List Activity) : Option Time :=
  l.foldr
    (fun a o =>
      match a.time.end_, o with
      | some e, some m => some (min e m)
      | some e, none => some e
      | none, o => o)
    none

/-- The projects merge as the claim describes it: sorted and de-duplicated. -/
def specDedupProjects (l : List Activity) : List Identifier :=
  (projAcc l).dedup.insertionSort idLe

/-- What the sweep guarantees about every emitted segment: it is the fold of
a non-empty set of contributing input activities, each of which covers the
segment's span; the segment's class reference is the chosen contributor
class, whose priority dominates every contributor's resolved priority; and
every input activity overlapping the segment is among the contributors. -/
def EmittedOk (cfg : JobConfig) (S : List Activity) (seg : Activity) : Prop :=
  ∃ contribs cls,
    contribs ≠ [] ∧
    (∀ a ∈ contribs, a ∈ S) ∧
    (∀ a ∈ contribs, a.time.start ≤ seg.time.start ∧ effend seg ≤ effend a) ∧
    seg.class_ = Identifier.uuid cls.id ∧
    (cls ∈ cfg.classes ∨ cls = cfg.lowest_priority_class) ∧
    (∀ a ∈ contribs, resolvedPrio cfg a.class_ ≤ cls.inner.priority) ∧
    (∀ a ∈ S, activeDuring a seg → a ∈ contribs)

/-- Invariant of the sweep in `calculate_activity_closure`, over the input
multiset `S` (the sorted activity list) and the activities not yet
processed. -/
structure Inv (cfg : JobConfig) (S : List Activity) (remaining : List Activity)
    (st : SweepState) : Prop where
  stack_sorted : st.stack.Pairwise endLe
  stack_complete : ∀ x ∈ st.stack, x.time.end_.isSome = true
  open_none : ∀ x ∈ st.open_ended, x.time.end_ = none
  active_mem : ∀ x, x ∈ st.stack ++ st.open_ended → x ∈ S
  closure_sep : st.closure.Pairwise Rsep
  closure_good : ∀ c ∈ st.closure, Good c
  frontier : ∀ L ∈ st.closure,
      (∃ t, st.last_activity_end = some t ∧ effend L ≤ t) ∨
      (∃ c, c ∈ st.stack ++ st.open_ended ∧ effend L ≤ c.time.start)
  last_le_stack : ∀ t, st.last_activity_end = some t → ∀ x ∈ st.stack, t ≤ effend x
  last_le_remaining : ∀ t, st.last_activity_end = some t → ∀ r ∈ remaining, t ≤ r.time.start
  accounted : ∀ a ∈ S, a ∈ remaining ∨ a ∈ st.stack ++ st.open_ended ∨
      (∃ t, st.last_activity_end = some t ∧ effend a ≤ t)
  emitted_ok : ∀ c ∈ st.closure, EmittedOk cfg S c

/-! ### Concrete instances used in counterexamples and witnesses -/

def t0 : Time := ⟨0, by decide⟩
def t1 : Time := ⟨1, by decide⟩
def t2 : Time := ⟨2, by decide⟩
def t3 : Time := ⟨3, by decide⟩
def t4 : Time := ⟨4, by decide⟩
def t5 : Time := ⟨5, by decide⟩
def t10 : Time := ⟨10, by decide⟩
def t11 : Time := ⟨11, by decide⟩
def t20 : Time := ⟨20, by decide⟩

/-- A concrete activity with a fixed identity, no display name and no
description. -/
def mkAct (cls : Identifier) (s : Time) (e : Option Time) (ps : List Identifier) : Activity :=
  ⟨0, none, cls, ⟨s, e⟩, ps⟩

def lowC : ActivityClass := ⟨1, ⟨"low", 0, none⟩⟩
def highC : ActivityClass := ⟨2, ⟨"high", 5, none⟩⟩

/-- A registry with two classes of priorities 0 and 5. -/
def cfg1 : JobConfig := ⟨[lowC, highC]⟩

/-- A degenerate registry where two classes share one uuid. -/
def cfgDup : JobConfig := ⟨[⟨1, ⟨"A", 0, none⟩⟩, ⟨1, ⟨"B", 5, none⟩⟩]⟩

def idLow : Identifier := .byName "low"
def idHigh : Identifier := .byName "high"

def actE5 : Activity := mkAct idLow t1 (some t5) []
def actE10 : Activity := mkAct idLow t2 (some t10) []
def actZ : Activity := mkAct idLow t4 (some t20) []
def actX : Activity := mkAct idLow t10 (some t5) []
def bHigh : Activity := mkAct idHigh t0 (some t10) []
def oLow : Activity := mkAct idLow t5 none []
def mBad : Activity := mkAct idLow t10 (some t2) []
def cAct : Activity := mkAct idLow t10 (some t11) []
def actDup : Activity := mkAct (.byName "B") t1 (some t2) []
def act5_10 : Activity := mkAct idLow t5 (some t10) []
def actP1 : Activity := mkAct idLow t1 (some t5) [.uuid 7]
def actP2 : Activity := mkAct idLow t1 (some t3) [.uuid 7]
def actU : Activity := mkAct (.byName "zz") t1 (some t5) []

theorem le_timeMax (t : Time) : t ≤ timeMax := by
  have h := t.isLt
  simp only [timeMax, Fin.le_def]
  omega

theorem foldAcc_spec (cfg : JobConfig) (l : List Activity) (acc : FoldAcc) :
    l.foldl (fold_step cfg) acc =
      ⟨startAccF l acc.start_time, endAccF l acc.end_time, clsAccF cfg l acc.cls,
        namesAccF l acc.names, acc.projects ++ projAcc l⟩ := by
  induction l generalizing acc with
  | nil => simp [startAccF, endAccF, clsAccF, namesAccF, projAcc]
  | cons a l ih =>
    simp only [List.foldl_cons]
    rw [ih]
    simp only [startAccF, endAccF, clsAccF, namesAccF, projAcc, fold_step, resolved_class,
      List.foldl_cons, List.foldr_cons, List.append_assoc]

/-- Closed form of `Activity.fold_inner` in terms of the accumulator
components. -/
theorem fold_inner_eq (cfg : JobConfig) (acts : List Activity) (s e : Option Time) :
    Activity.fold_inner cfg acts s e =
      match startAccF acts none with
      | none => none
      | some st0 =>
        match clamp_end (endAccF acts none) e with
        | some x =>
            if clamp_start st0 s > x then none
            else some (mkFolded (clsAccF cfg acts cfg.lowest_priority_class)
              (namesAccF acts []) (projAcc acts) (clamp_start st0 s) (some x))
        | none => some (mkFolded (clsAccF cfg acts cfg.lowest_priority_class)
              (namesAccF acts []) (projAcc acts) (clamp_start st0 s) none) := by
  unfold Activity.fold_inner
  rw [foldAcc_spec]
  rfl


theorem startAccF_isSome (l : List Activity) (t : Time) :
    ∃ m, startAccF l (some t) = some m ∧ t ≤ m ∧
      (t = m ∨ ∃ a ∈ l, a.time.start = m) ∧ ∀ a ∈ l, a.time.start ≤ m := by
  induction l generalizing t with
  | nil => exact ⟨t, rfl, le_refl t, Or.inl rfl, by simp⟩
  | cons a l ih =>
    simp only [startAccF, List.foldl_cons]
    by_cases h : a.time.start > t
    · simp only [if_pos h]
      obtain ⟨m, hm, hle, hattain, hub⟩ := ih a.time.start
      refine ⟨m, hm, le_trans (le_of_lt h) hle, ?_, ?_⟩
      · rcases hattain with h' | ⟨b, hb, h'⟩
        · exact Or.inr ⟨a, by simp, h'⟩
        · exact Or.inr ⟨b, by simp [hb], h'⟩
      · intro b hb
        rcases List.mem_cons.mp hb with rfl | hb
        · exact hle
        · exact hub b hb
    · simp only [if_neg h]
      obtain ⟨m, hm, hle, hattain, hub⟩ := ih t
      refine ⟨m, hm, hle, ?_, ?_⟩
      · rcases hattain with h' | ⟨b, hb, h'⟩
        · exact Or.inl h'
        · exact Or.inr ⟨b, by simp [hb], h'⟩
      · intro b hb
        rcases List.mem_cons.mp hb with rfl | hb
        · exact le_trans (le_of_not_lt h) hle
        · exact hub b hb

theorem startAccF_eq_none (l : List Activity) :
    startAccF l none = none ↔ l = [] := by
  cases l with
  | nil => simp [startAccF]
  | cons a l =>
    simp only [List.cons_ne_nil, iff_false]
    intro h
    obtain ⟨m, hm, -⟩ := startAccF_isSome l a.time.start
    simp only [startAccF, List.foldl_cons] at h
    rw [show (l.foldl (fun o a =>
      match o with
      | none => some a.time.start
      | some s => if a.time.start > s then some a.time.start else some s)
      (some a.time.start)) = startAccF l (some a.time.start) from rfl, hm] at h
    exact Option.noConfusion h

theorem startAccF_spec (l : List Activity) (m : Time) (h : startAccF l none = some m) :
    (∃ a ∈ l, a.time.start = m) ∧ ∀ a ∈ l, a.time.start ≤ m := by
  cases l with
  | nil => simp [startAccF] at h
  | cons a l =>
    simp only [startAccF, List.foldl_cons] at h
    obtain ⟨m', hm', hle, hattain, hub⟩ := startAccF_isSome l a.time.start
    rw [show startAccF l (some a.time.start) = l.foldl _ (some a.time.start) from rfl] at hm'
    rw [hm'] at h
    cases h
    constructor
    · rcases hattain with h' | ⟨b, hb, h'⟩
      · exact ⟨a, by simp, h'⟩
      · exact ⟨b, by simp [hb], h'⟩
    · intro b hb
      rcases List.mem_cons.mp hb with rfl | hb
      · exact hle
      · exact hub b hb

theorem endAccF_of_all_none (l : List Activity) (h : ∀ a ∈ l, a.time.end_ = none) :
    endAccF l none = none := by
  induction l with
  | nil => rfl
  | cons a l ih =>
    simp only [endAccF, List.foldl_cons]
    cases l with
    | nil => simpa using h a (by simp)
    | cons b t =>
      have := ih (fun x hx => h x (List.mem_cons_of_mem a hx))
      simpa [endAccF] using this

theorem clsAccF_priority_ge_init (cfg : JobConfig) (l : List Activity) (c : ActivityClass) :
    c.inner.priority ≤ (clsAccF cfg l c).inner.priority := by
  induction l generalizing c with
  | nil => exact le_refl _
  | cons a l ih =>
    simp only [clsAccF, List.foldl_cons]
    split
    · exact le_trans (le_of_lt (by assumption)) (ih _)
    · exact ih c

theorem clsAccF_priority_ge_mem (cfg : JobConfig) (l : List Activity) (c : ActivityClass)
    (a : Activity) (ha : a ∈ l) :
    (resolved_class cfg a).inner.priority ≤ (clsAccF cfg l c).inner.priority := by
  induction l generalizing c with
  | nil => simp at ha
  | cons b l ih =>
    rcases List.mem_cons.mp ha with rfl | ha
    · simp only [clsAccF, List.foldl_cons]
      split
      · exact clsAccF_priority_ge_init cfg l _
      · exact le_trans (le_of_not_lt (by assumption)) (clsAccF_priority_ge_init cfg l c)
    · simp only [clsAccF, List.foldl_cons]
      split
      · exact ih _ ha
      · exact ih c ha

theorem clsAccF_cases (cfg : JobConfig) (l : List Activity) (c : ActivityClass) :
    clsAccF cfg l c = c ∨ ∃ a ∈ l, clsAccF cfg l c = resolved_class cfg a := by
  induction l generalizing c with
  | nil => exact Or.inl rfl
  | cons a l ih =>
    simp only [clsAccF, List.foldl_cons]
    split
    · rcases ih (resolved_class cfg a) with h | ⟨b, hb, h⟩
      · exact Or.inr ⟨a, by simp, h⟩
      · exact Or.inr ⟨b, by simp [hb], h⟩
    · rcases ih c with h | ⟨b, hb, h⟩
      · exact Or.inl h
      · exact Or.inr ⟨b, by simp [hb], h⟩

theorem lowest_priority_aux (l : List ActivityClass) (c : ActivityClass) :
    (l.foldl
      (fun acc d =>
        match acc with
        | none => some d
        | some m => if d.inner.priority < m.inner.priority then some d else some m)
      (some c)).getD DUMMY_ACTIVITY_CLASS ∈ c :: l := by
  induction l generalizing c with
  | nil => simp
  | cons b l ih =>
    simp only [List.foldl_cons]
    split
    · rcases List.mem_cons.mp (ih b) with h' | h'
      · rw [h']; simp
      · simp [h']
    · rcases List.mem_cons.mp (ih c) with h' | h'
      · rw [h']; simp
      · simp [h']

theorem lowest_priority_class_mem (cfg : JobConfig) (h : cfg.classes ≠ []) :
    cfg.lowest_priority_class ∈ cfg.classes := by
  unfold JobConfig.lowest_priority_class
  cases hc : cfg.classes with
  | nil => exact absurd hc h
  | cons c l =>
    simp only [List.foldl_cons]
    have h' := lowest_priority_aux l c
    cases hf : (l.foldl
      (fun acc d =>
        match acc with
        | none => some d
        | some m => if d.inner.priority < m.inner.priority then some d else some m)
      (some c)) with
    | none => rw [hf] at h'; simpa using h'
    | some d => rw [hf] at h'; simpa using h'

theorem resolved_class_cases (cfg : JobConfig) (a : Activity) :
    resolved_class cfg a ∈ cfg.classes ∨ resolved_class cfg a = cfg.lowest_priority_class := by
  unfold resolved_class JobConfig.resolve_class
  cases h : cfg.classes.find? (fun c => c.identifier_matches a.class_) with
  | none => exact Or.inr rfl
  | some c => exact Or.inl (List.mem_of_find?_eq_some h)

/-! ### Characterization of `fold_inner` -/

theorem mkFolded_time (cls : ActivityClass) (names : List String) (projects : List Identifier)
    (start : Time) (end_ : Option Time) :
    (mkFolded cls names projects start end_).time = ⟨start, end_⟩ := rfl

theorem mkFolded_class (cls : ActivityClass) (names : List String) (projects : List Identifier)
    (start : Time) (end_ : Option Time) :
    (mkFolded cls names projects start end_).class_ = Identifier.uuid cls.id := rfl

theorem clamp_start_ge_self (st : Time) (limit : Option Time) : st ≤ clamp_start st limit := by
  cases limit with
  | none => exact le_refl st
  | some l =>
    simp only [clamp_start]
    split
    · exact le_of_lt (by assumption)
    · exact le_refl st

theorem clamp_start_ge_limit (st : Time) (limit : Option Time) (t : Time)
    (h : limit = some t) : t ≤ clamp_start st limit := by
  subst h
  simp only [clamp_start]
  split
  · exact le_refl t
  · exact le_of_not_lt (by assumption)

theorem clamp_end_some_limit (en : Option Time) (l : Time) :
    ∃ x, clamp_end en (some l) = some x ∧ x ≤ l := by
  cases en with
  | none => exact ⟨l, rfl, le_refl l⟩
  | some e =>
    simp only [clamp_end]
    refine ⟨if e > l then l else e, rfl, ?_⟩
    split
    · exact le_refl l
    · exact le_of_not_lt (by assumption)

theorem fold_inner_eq_some_iff (cfg : JobConfig) (acts : List Activity) (s e : Option Time)
    (seg : Activity) :
    Activity.fold_inner cfg acts s e = some seg ↔
      ∃ st0, startAccF acts none = some st0 ∧
        (∀ x, clamp_end (endAccF acts none) e = some x → clamp_start st0 s ≤ x) ∧
        seg = mkFolded (clsAccF cfg acts cfg.lowest_priority_class) (namesAccF acts [])
          (projAcc acts) (clamp_start st0 s) (clamp_end (endAccF acts none) e) := by
  rw [fold_inner_eq]
  cases h : startAccF acts none with
  | none => simp
  | some st0 =>
    cases he : clamp_end (endAccF acts none) e with
    | none =>
      simp only [Option.some.injEq]
      constructor
      · rintro rfl
        exact ⟨st0, rfl, fun x hx => Option.noConfusion hx, rfl⟩
      · rintro ⟨st1, hst1, -, rfl⟩
        cases hst1
        rfl
    | some x =>
      by_cases hgt : clamp_start st0 s > x
      · simp only [if_pos hgt]
        constructor
        · intro hfalse
          exact Option.noConfusion hfalse
        · rintro ⟨st1, hst1, hle, rfl⟩
          cases hst1
          exact absurd (hle x rfl) (not_le_of_lt hgt)
      · simp only [if_neg hgt, Option.some.injEq]
        constructor
        · rintro rfl
          refine ⟨st0, rfl, ?_, rfl⟩
          rintro y hy
          cases hy
          exact le_of_not_lt hgt
        · rintro ⟨st1, hst1, -, rfl⟩
          cases hst1
          rfl

theorem fold_inner_eq_none_iff (cfg : JobConfig) (acts : List Activity) (s e : Option Time) :
    Activity.fold_inner cfg acts s e = none ↔
      acts = [] ∨ ∃ st0 x, startAccF acts none = some st0 ∧
        clamp_end (endAccF acts none) e = some x ∧ x < clamp_start st0 s := by
  rw [fold_inner_eq]
  cases h : startAccF acts none with
  | none =>
    simp only [true_iff]
    exact Or.inl ((startAccF_eq_none acts).mp h)
  | some st0 =>
    have hne : acts ≠ [] := by
      intro hnil
      subst hnil
      simp [startAccF] at h
    cases he : clamp_end (endAccF acts none) e with
    | none =>
      simp only [iff_false, reduceCtorEq, false_iff]
      push_neg
      refine ⟨hne, ?_⟩
      rintro st1 x hst1 hx
      cases hst1
      exact absurd hx (by simp)
    | some x =>
      by_cases hgt : clamp_start st0 s > x
      · simp only [if_pos hgt, true_iff]
        exact Or.inr ⟨st0, x, rfl, rfl, hgt⟩
      · simp only [if_neg hgt, reduceCtorEq, false_iff]
        push_neg
        refine ⟨hne, ?_⟩
        rintro st1 y hst1 hy
        cases hst1
        cases hy
        exact le_of_not_lt hgt

theorem fold_report_eq_some (cfg : JobConfig) (stack open_ended : List Activity)
    (s e : Option Time) (seg : Activity)
    (h : fold_report cfg stack open_ended s e = some seg) :
    Activity.fold_inner cfg (stack ++ open_ended) s e = some seg ∧
      seg.time.start ≠ effend seg := by
  unfold fold_report at h
  cases hf : Activity.fold_inner cfg (stack ++ open_ended) s e with
  | none => rw [hf] at h; exact Option.noConfusion h
  | some folded =>
    rw [hf] at h
    simp only [] at h
    by_cases hz : folded.time.start = folded.time.end_time_or_end_of_day
    · simp only [if_pos hz] at h
      exact Option.noConfusion h
    · simp only [if_neg hz, Option.some.injEq] at h
      subst h
      exact ⟨rfl, hz⟩

/-! ### The emission lemma: what every `fold_report` success guarantees -/

theorem emission_ok (cfg : JobConfig) (S cstack copen : List Activity)
    (last lim : Option Time) (seg : Activity)
    (hrep : fold_report cfg cstack copen last lim = some seg)
    (hmemS : ∀ a ∈ cstack ++ copen, a ∈ S)
    (hopen : ∀ a ∈ copen, a.time.end_ = none)
    (hendge : ∀ a ∈ cstack, ∀ l, lim = some l → l ≤ effend a)
    (hlim_none : lim = none → cstack = [])
    (haccount : ∀ a ∈ S, a ∈ cstack ++ copen ∨
        (∃ l, lim = some l ∧ l ≤ a.time.start) ∨
        (∃ t, last = some t ∧ effend a ≤ t)) :
    EmittedOk cfg S seg ∧ Good seg ∧
      (∀ t, last = some t → t ≤ seg.time.start) ∧
      (∀ l, lim = some l → effend seg ≤ l) ∧
      (∀ a ∈ cstack ++ copen, a.time.start ≤ seg.time.start) := by
  obtain ⟨hfold, hne⟩ := fold_report_eq_some cfg cstack copen last lim seg hrep
  obtain ⟨st0, hst0, hle, hseg⟩ := (fold_inner_eq_some_iff cfg _ last lim seg).mp hfold
  have htime : seg.time =
      ⟨clamp_start st0 last, clamp_end (endAccF (cstack ++ copen) none) lim⟩ := by
    rw [hseg]
    exact mkFolded_time _ _ _ _ _
  have hstart : seg.time.start = clamp_start st0 last := by rw [htime]
  have hend : seg.time.end_ = clamp_end (endAccF (cstack ++ copen) none) lim := by rw [htime]
  obtain ⟨hattain, hub⟩ := startAccF_spec _ st0 hst0
  have hcon_ne : cstack ++ copen ≠ [] := by
    intro hnil
    rw [(startAccF_eq_none _).mpr hnil] at hst0
    exact Option.noConfusion hst0
  have hstart_ge_last : ∀ t, last = some t → t ≤ seg.time.start := by
    intro t ht
    rw [hstart]
    exact clamp_start_ge_limit st0 last t ht
  have hstart_ge_contrib : ∀ a ∈ cstack ++ copen, a.time.start ≤ seg.time.start := by
    intro a ha
    rw [hstart]
    exact le_trans (hub a ha) (clamp_start_ge_self st0 last)
  have heff_le : ∀ l, lim = some l → effend seg ≤ l := by
    intro l hl
    subst hl
    obtain ⟨x, hx, hxle⟩ := clamp_end_some_limit (endAccF (cstack ++ copen) none) l
    have : seg.time.end_ = some x := by rw [hend, hx]
    simp only [effend, Interval.end_time_or_end_of_day, this, Option.getD_some]
    exact hxle
  have heff_seg_none : lim = none → seg.time.end_ = none := by
    intro hl
    subst hl
    have hstacknil := hlim_none rfl
    subst hstacknil
    rw [hend, endAccF_of_all_none _ (by simpa using hopen)]
    rfl
  have hstart_le_eff : seg.time.start ≤ effend seg := by
    cases hx : seg.time.end_ with
    | none =>
      simp only [effend, Interval.end_time_or_end_of_day, hx, Option.getD_none]
      exact le_timeMax _
    | some x =>
      have := hle x (by rw [← hend, hx])
      simp only [effend, Interval.end_time_or_end_of_day, hx, Option.getD_some]
      rw [hstart]
      exact this
  have hgood : Good seg := lt_of_le_of_ne hstart_le_eff hne
  have hcover : ∀ a ∈ cstack ++ copen, a.time.start ≤ seg.time.start ∧ effend seg ≤ effend a := by
    intro a ha
    refine ⟨hstart_ge_contrib a ha, ?_⟩
    cases hl : lim with
    | some l =>
      have h1 := heff_le l hl
      rcases List.mem_append.mp ha with hstk | hop
      · exact le_trans h1 (hendge a hstk l hl)
      · have h2 : effend a = timeMax := by
          simp [effend, Interval.end_time_or_end_of_day, hopen a hop]
        rw [h2]
        exact le_timeMax _
    | none =>
      have h1 : effend seg = timeMax := by
        simp [effend, Interval.end_time_or_end_of_day, heff_seg_none hl]
      have hstacknil := hlim_none hl
      subst hstacknil
      have h2 : effend a = timeMax := by
        simp [effend, Interval.end_time_or_end_of_day, hopen a (by simpa using ha)]
      rw [h1, h2]
  have hclass : seg.class_ =
      Identifier.uuid (clsAccF cfg (cstack ++ copen) cfg.lowest_priority_class).id := by
    rw [hseg]
    rfl
  have hclsmem : clsAccF cfg (cstack ++ copen) cfg.lowest_priority_class ∈ cfg.classes ∨
      clsAccF cfg (cstack ++ copen) cfg.lowest_priority_class = cfg.lowest_priority_class := by
    rcases clsAccF_cases cfg (cstack ++ copen) cfg.lowest_priority_class with h | ⟨a, -, h⟩
    · exact Or.inr h
    · rw [h]
      exact resolved_class_cases cfg a
  have hprio : ∀ a ∈ cstack ++ copen, resolvedPrio cfg a.class_ ≤
      (clsAccF cfg (cstack ++ copen) cfg.lowest_priority_class).inner.priority := by
    intro a ha
    exact clsAccF_priority_ge_mem cfg _ _ a ha
  have hcomplete : ∀ a ∈ S, activeDuring a seg → a ∈ cstack ++ copen := by
    intro a haS hact
    rcases haccount a haS with h | ⟨l, hl, hla⟩ | ⟨t, ht, hta⟩
    · exact h
    · exact absurd hact.1 (not_lt_of_le (le_trans (heff_le l hl) hla))
    · exact absurd hact.2 (not_lt_of_le (le_trans hta (hstart_ge_last t ht)))
  refine ⟨⟨cstack ++ copen, clsAccF cfg (cstack ++ copen) cfg.lowest_priority_class,
    hcon_ne, hmemS, hcover, hclass, hclsmem, hprio, hcomplete⟩,
    hgood, hstart_ge_last, heff_le, hstart_ge_contrib⟩

theorem pairwise_append_one {l : List Activity} {seg : Activity}
    (hp : l.Pairwise Rsep) (hall : ∀ x ∈ l, Rsep x seg) :
    (l ++ [seg]).Pairwise Rsep := by
  rw [List.pairwise_append]
  refine ⟨hp, List.pairwise_singleton _ _, ?_⟩
  intro x hx y hy
  rcases List.mem_singleton.mp hy with rfl
  exact hall x hx

theorem drainLoop_inv (cfg : JobConfig) (S : List Activity) (hWF : ∀ a ∈ S, WFa a)
    (cutoff : Time) (open_ended remaining : List Activity)
    (hcut : ∀ r ∈ remaining, cutoff ≤ r.time.start) :
    ∀ (stack : List Activity) (last : Option Time) (closure : List Activity),
    (∀ t, last = some t → t ≤ cutoff) →
    Inv cfg S remaining ⟨stack, open_ended, last, closure⟩ →
    ∃ stack2 last2 closure2,
      drainLoop cfg cutoff open_ended stack last closure = (stack2, last2, closure2) ∧
      Inv cfg S remaining ⟨stack2, open_ended, last2, closure2⟩ ∧
      (∀ t, last2 = some t → t ≤ cutoff) ∧
      (∀ x ∈ stack2, x ∈ stack) ∧
      (∀ x ∈ stack2, ¬ effend x ≤ cutoff) := by
  intro stack
  induction stack with
  | nil =>
    intro last closure hlast inv
    exact ⟨[], last, closure, rfl, inv, hlast, by simp, by simp⟩
  | cons top rest ih =>
    intro last closure hlast inv
    by_cases htop : effend top ≤ cutoff
    case neg =>
      refine ⟨top :: rest, last, closure, ?_, inv, hlast, fun x hx => hx, ?_⟩
      · simp only [drainLoop, if_neg htop]
      · intro x hx
        rcases List.mem_cons.mp hx with rfl | hx
        · exact htop
        · have hx2 := (List.pairwise_cons.mp inv.stack_sorted).1 x hx
          intro hc
          exact htop (le_trans hx2 hc)
    case pos =>
      have hstep : drainLoop cfg cutoff open_ended (top :: rest) last closure =
          drainLoop cfg cutoff open_ended rest (some (effend top))
            (closure ++ (fold_report cfg (top :: rest) open_ended last
              (some (effend top))).toList) := by
        simp only [drainLoop, if_pos htop]
      have hmem_top : top ∈ S := inv.active_mem top (by simp)
      have hWFtop : WFa top := hWF top hmem_top
      have hsorted := List.pairwise_cons.mp inv.stack_sorted
      have hlast2 : ∀ t, (some (effend top) : Option Time) = some t → t ≤ cutoff := by
        rintro t ht
        cases ht
        exact htop
      have hlast_stack : ∀ t, last = some t → t ≤ effend top := by
        intro t ht
        exact inv.last_le_stack t ht top (by simp)
      -- common pieces of the invariant after the pop, independent of emission
      have hstack_sorted2 : rest.Pairwise endLe := hsorted.2
      have hstack_complete2 : ∀ x ∈ rest, x.time.end_.isSome = true :=
        fun x hx => inv.stack_complete x (List.mem_cons_of_mem _ hx)
      have hactive_mem2 : ∀ x, x ∈ rest ++ open_ended → x ∈ S := by
        intro x hx
        rcases List.mem_append.mp hx with hx | hx
        · exact inv.active_mem x (by simp [hx])
        · exact inv.active_mem x (by simp [hx])
      have hlast_le_stack2 : ∀ t, (some (effend top) : Option Time) = some t →
          ∀ x ∈ rest, t ≤ effend x := by
        rintro t ht x hx
        cases ht
        exact hsorted.1 x hx
      have hlast_le_remaining2 : ∀ t, (some (effend top) : Option Time) = some t →
          ∀ r ∈ remaining, t ≤ r.time.start := by
        rintro t ht r hr
        cases ht
        exact le_trans htop (hcut r hr)
      have haccounted2 : ∀ a ∈ S, a ∈ remaining ∨ a ∈ rest ++ open_ended ∨
          (∃ t, (some (effend top) : Option Time) = some t ∧ effend a ≤ t) := by
        intro a haS
        rcases inv.accounted a haS with h | h | ⟨t, ht, hle⟩
        · exact Or.inl h
        · rcases List.mem_append.mp h with h | h
          · rcases List.mem_cons.mp h with rfl | h
            · exact Or.inr (Or.inr ⟨effend a, rfl, le_refl _⟩)
            · exact Or.inr (Or.inl (List.mem_append.mpr (Or.inl h)))
          · exact Or.inr (Or.inl (List.mem_append.mpr (Or.inr h)))
        · exact Or.inr (Or.inr ⟨effend top, rfl, le_trans hle (hlast_stack t ht)⟩)
      have hfrontier_old : ∀ L ∈ closure,
          (∃ t, (some (effend top) : Option Time) = some t ∧ effend L ≤ t) ∨
          (∃ c, c ∈ rest ++ open_ended ∧ effend L ≤ c.time.start) := by
        intro L hL
        rcases inv.frontier L hL with ⟨t, ht, hle⟩ | ⟨c, hc, hle⟩
        · exact Or.inl ⟨effend top, rfl, le_trans hle (hlast_stack t ht)⟩
        · rcases List.mem_append.mp hc with hc | hc
          · rcases List.mem_cons.mp hc with hceq | hc
            · rw [hceq] at hle
              exact Or.inl ⟨effend top, rfl, le_trans hle hWFtop⟩
            · exact Or.inr ⟨c, List.mem_append.mpr (Or.inl hc), hle⟩
          · exact Or.inr ⟨c, List.mem_append.mpr (Or.inr hc), hle⟩
      cases hrep : fold_report cfg (top :: rest) open_ended last (some (effend top)) with
      | none =>
        have hinv2 : Inv cfg S remaining ⟨rest, open_ended, some (effend top), closure⟩ :=
          ⟨hstack_sorted2, hstack_complete2, inv.open_none, hactive_mem2,
            inv.closure_sep, inv.closure_good, hfrontier_old, hlast_le_stack2,
            hlast_le_remaining2, haccounted2, inv.emitted_ok⟩
        obtain ⟨s2, l2, c2, heq, hinv3, h1, h2, h3⟩ := ih (some (effend top)) closure hlast2 hinv2
        refine ⟨s2, l2, c2, ?_, hinv3, h1, fun x hx => List.mem_cons_of_mem _ (h2 x hx), h3⟩
        rw [hstep, hrep]
        simpa using heq
      | some seg =>
        have hendge : ∀ a ∈ top :: rest, ∀ l, (some (effend top) : Option Time) = some l →
            l ≤ effend a := by
          rintro a ha l hl
          cases hl
          rcases List.mem_cons.mp ha with rfl | ha
          · exact le_refl _
          · exact hsorted.1 a ha
        have haccount : ∀ a ∈ S, a ∈ (top :: rest) ++ open_ended ∨
            (∃ l, (some (effend top) : Option Time) = some l ∧ l ≤ a.time.start) ∨
            (∃ t, last = some t ∧ effend a ≤ t) := by
          intro a haS
          rcases inv.accounted a haS with h | h | h
          · exact Or.inr (Or.inl ⟨effend top, rfl, le_trans htop (hcut a h)⟩)
          · exact Or.inl h
          · exact Or.inr (Or.inr h)
        obtain ⟨hEOk, hGood, hlastle, hefflim, hstartge⟩ :=
          emission_ok cfg S (top :: rest) open_ended last (some (effend top)) seg hrep
            inv.active_mem inv.open_none hendge (fun h => Option.noConfusion h) haccount
        have hall : ∀ x ∈ closure, Rsep x seg := by
          intro x hx
          rcases inv.frontier x hx with ⟨t, ht, hle⟩ | ⟨c, hc, hle⟩
          · exact le_trans hle (hlastle t ht)
          · exact le_trans hle (hstartge c hc)
        have hsep2 : (closure ++ [seg]).Pairwise Rsep :=
          pairwise_append_one inv.closure_sep hall
        have hgood2 : ∀ c ∈ closure ++ [seg], Good c := by
          intro c hc
          rcases List.mem_append.mp hc with hc | hc
          · exact inv.closure_good c hc
          · rcases List.mem_singleton.mp hc with rfl
            exact hGood
        have hfront2 : ∀ L ∈ closure ++ [seg],
            (∃ t, (some (effend top) : Option Time) = some t ∧ effend L ≤ t) ∨
            (∃ c, c ∈ rest ++ open_ended ∧ effend L ≤ c.time.start) := by
          intro L hL
          rcases List.mem_append.mp hL with hL | hL
          · exact hfrontier_old L hL
          · rcases List.mem_singleton.mp hL with rfl
            exact Or.inl ⟨effend top, rfl, hefflim (effend top) rfl⟩
        have hEOk2 : ∀ c ∈ closure ++ [seg], EmittedOk cfg S c := by
          intro c hc
          rcases List.mem_append.mp hc with hc | hc
          · exact inv.emitted_ok c hc
          · rcases List.mem_singleton.mp hc with rfl
            exact hEOk
        have hinv2 : Inv cfg S remaining
            ⟨rest, open_ended, some (effend top), closure ++ [seg]⟩ :=
          ⟨hstack_sorted2, hstack_complete2, inv.open_none, hactive_mem2,
            hsep2, hgood2, hfront2, hlast_le_stack2,
            hlast_le_remaining2, haccounted2, hEOk2⟩
        obtain ⟨s2, l2, c2, heq, hinv3, h1, h2, h3⟩ :=
          ih (some (effend top)) (closure ++ [seg]) hlast2 hinv2
        refine ⟨s2, l2, c2, ?_, hinv3, h1, fun x hx => List.mem_cons_of_mem _ (h2 x hx), h3⟩
        rw [hstep, hrep]
        simpa using heq

theorem processActivity_inv (cfg : JobConfig) (S : List Activity) (hWF : ∀ a ∈ S, WFa a)
    (r : Activity) (rest : List Activity) (st : SweepState)
    (hr : r ∈ S) (hsor : ∀ x ∈ rest, r.time.start ≤ x.time.start)
    (inv : Inv cfg S (r :: rest) st) :
    Inv cfg S rest (processActivity cfg st r) := by
  have hcut : ∀ x ∈ r :: rest, r.time.start ≤ x.time.start := by
    intro x hx
    rcases List.mem_cons.mp hx with rfl | hx
    · exact le_refl _
    · exact hsor x hx
  have hlast0 : ∀ t, st.last_activity_end = some t → t ≤ r.time.start :=
    fun t ht => inv.last_le_remaining t ht r (by simp)
  obtain ⟨stack2, last2, closure2, heq, hinv2, hlast2, hsub2, hgt2⟩ :=
    drainLoop_inv cfg S hWF r.time.start st.open_ended (r :: rest) hcut
      st.stack st.last_activity_end st.closure hlast0 inv
  have hendge : ∀ a ∈ stack2, ∀ l, (some r.time.start : Option Time) = some l →
      l ≤ effend a := by
    rintro a ha l hl
    cases hl
    exact le_of_not_le (hgt2 a ha)
  have haccount : ∀ a ∈ S, a ∈ stack2 ++ st.open_ended ∨
      (∃ l, (some r.time.start : Option Time) = some l ∧ l ≤ a.time.start) ∨
      (∃ t, last2 = some t ∧ effend a ≤ t) := by
    intro a haS
    rcases hinv2.accounted a haS with h | h | h
    · rcases List.mem_cons.mp h with rfl | h
      · exact Or.inr (Or.inl ⟨a.time.start, rfl, le_refl _⟩)
      · exact Or.inr (Or.inl ⟨r.time.start, rfl, hsor a h⟩)
    · exact Or.inl h
    · exact Or.inr (Or.inr h)
  -- facts about the closure extended by the boundary emission
  have hclosed : ∀ seg,
      fold_report cfg stack2 st.open_ended last2 (some r.time.start) = some seg →
      (closure2 ++ [seg]).Pairwise Rsep ∧ (∀ c ∈ closure2 ++ [seg], Good c) ∧
      (∀ c ∈ closure2 ++ [seg], EmittedOk cfg S c) ∧
      (∀ L ∈ closure2 ++ [seg],
        (∃ t, last2 = some t ∧ effend L ≤ t) ∨
        (∃ c, c ∈ stack2 ++ st.open_ended ∧ effend L ≤ c.time.start) ∨
        effend L ≤ r.time.start) := by
    intro seg hrep
    obtain ⟨hEOk, hGood, hlastle, hefflim, hstartge⟩ :=
      emission_ok cfg S stack2 st.open_ended last2 (some r.time.start) seg hrep
        hinv2.active_mem hinv2.open_none hendge (fun h => Option.noConfusion h) haccount
    have hall : ∀ x ∈ closure2, Rsep x seg := by
      intro x hx
      rcases hinv2.frontier x hx with ⟨t, ht, hle⟩ | ⟨c, hc, hle⟩
      · exact le_trans hle (hlastle t ht)
      · exact le_trans hle (hstartge c hc)
    refine ⟨pairwise_append_one hinv2.closure_sep hall, ?_, ?_, ?_⟩
    · intro c hc
      rcases List.mem_append.mp hc with hc | hc
      · exact hinv2.closure_good c hc
      · rcases List.mem_singleton.mp hc with rfl
        exact hGood
    · intro c hc
      rcases List.mem_append.mp hc with hc | hc
      · exact hinv2.emitted_ok c hc
      · rcases List.mem_singleton.mp hc with rfl
        exact hEOk
    · intro L hL
      rcases List.mem_append.mp hL with hL | hL
      · rcases hinv2.frontier L hL with h | h
        · exact Or.inl h
        · exact Or.inr (Or.inl h)
      · rcases List.mem_singleton.mp hL with rfl
        exact Or.inr (Or.inr (hefflim r.time.start rfl))
  -- collected facts about the extended closure, for both emission outcomes
  have hclosure3 :
      (closure2 ++ (fold_report cfg stack2 st.open_ended last2
        (some r.time.start)).toList).Pairwise Rsep ∧
      (∀ c ∈ closure2 ++ (fold_report cfg stack2 st.open_ended last2
        (some r.time.start)).toList, Good c) ∧
      (∀ c ∈ closure2 ++ (fold_report cfg stack2 st.open_ended last2
        (some r.time.start)).toList, EmittedOk cfg S c) ∧
      (∀ L ∈ closure2 ++ (fold_report cfg stack2 st.open_ended last2
        (some r.time.start)).toList,
        (∃ t, last2 = some t ∧ effend L ≤ t) ∨
        (∃ c, c ∈ stack2 ++ st.open_ended ∧ effend L ≤ c.time.start) ∨
        effend L ≤ r.time.start) := by
    cases hrep : fold_report cfg stack2 st.open_ended last2 (some r.time.start) with
    | none =>
      simp only [Option.toList_none, List.append_nil]
      refine ⟨hinv2.closure_sep, hinv2.closure_good, hinv2.emitted_ok, ?_⟩
      intro L hL
      rcases hinv2.frontier L hL with h | h
      · exact Or.inl h
      · exact Or.inr (Or.inl h)
    | some seg =>
      simp only [Option.toList_some]
      exact hclosed seg hrep
  obtain ⟨hsep3, hgood3, hEOk3, hfront3⟩ := hclosure3
  have hWFr : WFa r := hWF r hr
  -- now the two insertion branches
  have hstep : processActivity cfg st r =
      (if r.time.is_complete then
        { stack := stack2.orderedInsert endLe r
          open_ended := st.open_ended
          last_activity_end := last2
          closure := closure2 ++ (fold_report cfg stack2 st.open_ended last2
            (some r.time.start)).toList }
      else
        { stack := stack2
          open_ended := st.open_ended ++ [r]
          last_activity_end := last2
          closure := closure2 ++ (fold_report cfg stack2 st.open_ended last2
            (some r.time.start)).toList } : SweepState) := by
    simp only [processActivity, heq]
  rw [hstep]
  by_cases hcomp : r.time.is_complete
  case pos =>
    rw [if_pos hcomp]
    refine ⟨?_, ?_, hinv2.open_none, ?_, hsep3, hgood3, ?_, ?_, ?_, ?_, hEOk3⟩
    · exact List.Sorted.orderedInsert r stack2 hinv2.stack_sorted
    · intro x hx
      rcases (List.mem_orderedInsert endLe).mp hx with rfl | hx
      · simpa [Interval.is_complete] using hcomp
      · exact hinv2.stack_complete x hx
    · intro x hx
      rcases List.mem_append.mp hx with hx | hx
      · rcases (List.mem_orderedInsert endLe).mp hx with rfl | hx
        · exact hr
        · exact hinv2.active_mem x (List.mem_append.mpr (Or.inl hx))
      · exact hinv2.active_mem x (List.mem_append.mpr (Or.inr hx))
    · intro L hL
      rcases hfront3 L hL with h | ⟨c, hc, hle⟩ | h
      · exact Or.inl h
      · refine Or.inr ⟨c, ?_, hle⟩
        rcases List.mem_append.mp hc with hc | hc
        · exact List.mem_append.mpr (Or.inl ((List.mem_orderedInsert endLe).mpr (Or.inr hc)))
        · exact List.mem_append.mpr (Or.inr hc)
      · exact Or.inr ⟨r, List.mem_append.mpr
          (Or.inl ((List.mem_orderedInsert endLe).mpr (Or.inl rfl))), h⟩
    · intro t ht x hx
      rcases (List.mem_orderedInsert endLe).mp hx with rfl | hx
      · exact le_trans (hlast2 t ht) hWFr
      · exact hinv2.last_le_stack t ht x hx
    · intro t ht x hx
      exact hinv2.last_le_remaining t ht x (List.mem_cons_of_mem _ hx)
    · intro a haS
      rcases hinv2.accounted a haS with h | h | h
      · rcases List.mem_cons.mp h with rfl | h
        · exact Or.inr (Or.inl (List.mem_append.mpr
            (Or.inl ((List.mem_orderedInsert endLe).mpr (Or.inl rfl)))))
        · exact Or.inl h
      · rcases List.mem_append.mp h with h | h
        · exact Or.inr (Or.inl (List.mem_append.mpr
            (Or.inl ((List.mem_orderedInsert endLe).mpr (Or.inr h)))))
        · exact Or.inr (Or.inl (List.mem_append.mpr (Or.inr h)))
      · exact Or.inr (Or.inr h)
  case neg =>
    rw [if_neg hcomp]
    have hrnone : r.time.end_ = none := by
      cases hx : r.time.end_ with
      | none => rfl
      | some v => exact absurd (by simp [Interval.is_complete, hx]) hcomp
    refine ⟨hinv2.stack_sorted, hinv2.stack_complete, ?_, ?_, hsep3, hgood3, ?_, ?_, ?_, ?_, hEOk3⟩
    · intro x hx
      rcases List.mem_append.mp hx with hx | hx
      · exact hinv2.open_none x hx
      · rcases List.mem_singleton.mp hx with rfl
        exact hrnone
    · intro x hx
      rcases List.mem_append.mp hx with hx | hx
      · exact hinv2.active_mem x (List.mem_append.mpr (Or.inl hx))
      · rcases List.mem_append.mp hx with hx | hx
        · exact hinv2.active_mem x (List.mem_append.mpr (Or.inr hx))
        · rcases List.mem_singleton.mp hx with rfl
          exact hr
    · intro L hL
      rcases hfront3 L hL with h | ⟨c, hc, hle⟩ | h
      · exact Or.inl h
      · refine Or.inr ⟨c, ?_, hle⟩
        rcases List.mem_append.mp hc with hc | hc
        · exact List.mem_append.mpr (Or.inl hc)
        · exact List.mem_append.mpr (Or.inr (List.mem_append.mpr (Or.inl hc)))
      · exact Or.inr ⟨r, List.mem_append.mpr
          (Or.inr (List.mem_append.mpr (Or.inr (List.mem_singleton.mpr rfl)))), h⟩
    · exact hinv2.last_le_stack
    · intro t ht x hx
      exact hinv2.last_le_remaining t ht x (List.mem_cons_of_mem _ hx)
    · intro a haS
      rcases hinv2.accounted a haS with h | h | h
      · rcases List.mem_cons.mp h with rfl | h
        · exact Or.inr (Or.inl (List.mem_append.mpr
            (Or.inr (List.mem_append.mpr (Or.inr (List.mem_singleton.mpr rfl))))))
        · exact Or.inl h
      · rcases List.mem_append.mp h with h | h
        · exact Or.inr (Or.inl (List.mem_append.mpr (Or.inl h)))
        · exact Or.inr (Or.inl (List.mem_append.mpr
            (Or.inr (List.mem_append.mpr (Or.inl h)))))
      · exact Or.inr (Or.inr h)

theorem foldl_inv (cfg : JobConfig) (S : List Activity) (hWF : ∀ a ∈ S, WFa a) :
    ∀ (l : List Activity) (st : SweepState),
    (∀ x ∈ l, x ∈ S) → l.Pairwise startLe →
    Inv cfg S l st →
    Inv cfg S [] (l.foldl (processActivity cfg) st) := by
  intro l
  induction l with
  | nil =>
    intro st _ _ inv
    exact inv
  | cons r rest ih =>
    intro st hmem hsort inv
    simp only [List.foldl_cons]
    obtain ⟨hr, hsort'⟩ := List.pairwise_cons.mp hsort
    exact ih _ (fun x hx => hmem x (List.mem_cons_of_mem _ hx)) hsort'
      (processActivity_inv cfg S hWF r rest st (hmem r (by simp)) hr inv)

theorem finalDrain_inv (cfg : JobConfig) (S : List Activity) (hWF : ∀ a ∈ S, WFa a)
    (open_ended : List Activity) :
    ∀ (stack : List Activity) (last : Option Time) (closure : List Activity),
    Inv cfg S [] ⟨stack, open_ended, last, closure⟩ →
    ∃ last2 closure2,
      finalDrain cfg open_ended stack last closure = (last2, closure2) ∧
      Inv cfg S [] ⟨[], open_ended, last2, closure2⟩ := by
  intro stack
  induction stack with
  | nil =>
    intro last closure inv
    exact ⟨last, closure, rfl, inv⟩
  | cons top rest ih =>
    intro last closure inv
    have hcompl := inv.stack_complete top (by simp)
    obtain ⟨te, hte⟩ := Option.isSome_iff_exists.mp hcompl
    have hteff : effend top = te := by
      simp [effend, Interval.end_time_or_end_of_day, hte]
    have hlim : top.time.end_ = some (effend top) := by rw [hte, hteff]
    have hmem_top : top ∈ S := inv.active_mem top (by simp)
    have hWFtop : WFa top := hWF top hmem_top
    have hsorted := List.pairwise_cons.mp inv.stack_sorted
    have hlast_stack : ∀ t, last = some t → t ≤ effend top := by
      intro t ht
      exact inv.last_le_stack t ht top (by simp)
    have hstack_sorted2 : rest.Pairwise endLe := hsorted.2
    have hstack_complete2 : ∀ x ∈ rest, x.time.end_.isSome = true :=
      fun x hx => inv.stack_complete x (List.mem_cons_of_mem _ hx)
    have hactive_mem2 : ∀ x, x ∈ rest ++ open_ended → x ∈ S := by
      intro x hx
      rcases List.mem_append.mp hx with hx | hx
      · exact inv.active_mem x (by simp [hx])
      · exact inv.active_mem x (by simp [hx])
    have hlast_le_stack2 : ∀ t, (some (effend top) : Option Time) = some t →
        ∀ x ∈ rest, t ≤ effend x := by
      rintro t ht x hx
      cases ht
      exact hsorted.1 x hx
    have haccounted2 : ∀ a ∈ S, a ∈ ([] : List Activity) ∨ a ∈ rest ++ open_ended ∨
        (∃ t, (some (effend top) : Option Time) = some t ∧ effend a ≤ t) := by
      intro a haS
      rcases inv.accounted a haS with h | h | ⟨t, ht, hle⟩
      · simp at h
      · rcases List.mem_append.mp h with h | h
        · rcases List.mem_cons.mp h with rfl | h
          · exact Or.inr (Or.inr ⟨effend a, rfl, le_refl _⟩)
          · exact Or.inr (Or.inl (List.mem_append.mpr (Or.inl h)))
        · exact Or.inr (Or.inl (List.mem_append.mpr (Or.inr h)))
      · exact Or.inr (Or.inr ⟨effend top, rfl, le_trans hle (hlast_stack t ht)⟩)
    have hfrontier_old : ∀ L ∈ closure,
        (∃ t, (some (effend top) : Option Time) = some t ∧ effend L ≤ t) ∨
        (∃ c, c ∈ rest ++ open_ended ∧ effend L ≤ c.time.start) := by
      intro L hL
      rcases inv.frontier L hL with ⟨t, ht, hle⟩ | ⟨c, hc, hle⟩
      · exact Or.inl ⟨effend top, rfl, le_trans hle (hlast_stack t ht)⟩
      · rcases List.mem_append.mp hc with hc | hc
        · rcases List.mem_cons.mp hc with hceq | hc
          · rw [hceq] at hle
            exact Or.inl ⟨effend top, rfl, le_trans hle hWFtop⟩
          · exact Or.inr ⟨c, List.mem_append.mpr (Or.inl hc), hle⟩
        · exact Or.inr ⟨c, List.mem_append.mpr (Or.inr hc), hle⟩
    have hstep : finalDrain cfg open_ended (top :: rest) last closure =
        finalDrain cfg open_ended rest (some (effend top))
          (closure ++ (fold_report cfg (top :: rest) open_ended last
            top.time.end_).toList) := by
      simp only [finalDrain]
    cases hrep : fold_report cfg (top :: rest) open_ended last top.time.end_ with
    | none =>
      have hinv2 : Inv cfg S [] ⟨rest, open_ended, some (effend top), closure⟩ :=
        ⟨hstack_sorted2, hstack_complete2, inv.open_none, hactive_mem2,
          inv.closure_sep, inv.closure_good, hfrontier_old, hlast_le_stack2,
          by simp, haccounted2, inv.emitted_ok⟩
      obtain ⟨l2, c2, heq, hinv3⟩ := ih (some (effend top)) closure hinv2
      refine ⟨l2, c2, ?_, hinv3⟩
      rw [hstep, hrep]
      simpa using heq
    | some seg =>
      rw [hlim] at hrep
      have hendge : ∀ a ∈ top :: rest, ∀ l, (some (effend top) : Option Time) = some l →
          l ≤ effend a := by
        rintro a ha l hl
        cases hl
        rcases List.mem_cons.mp ha with rfl | ha
        · exact le_refl _
        · exact hsorted.1 a ha
      have haccount : ∀ a ∈ S, a ∈ (top :: rest) ++ open_ended ∨
          (∃ l, (some (effend top) : Option Time) = some l ∧ l ≤ a.time.start) ∨
          (∃ t, last = some t ∧ effend a ≤ t) := by
        intro a haS
        rcases inv.accounted a haS with h | h | h
        · simp at h
        · exact Or.inl h
        · exact Or.inr (Or.inr h)
      obtain ⟨hEOk, hGood, hlastle, hefflim, hstartge⟩ :=
        emission_ok cfg S (top :: rest) open_ended last (some (effend top)) seg hrep
          inv.active_mem inv.open_none hendge (fun h => Option.noConfusion h) haccount
      have hall : ∀ x ∈ closure, Rsep x seg := by
        intro x hx
        rcases inv.frontier x hx with ⟨t, ht, hle⟩ | ⟨c, hc, hle⟩
        · exact le_trans hle (hlastle t ht)
        · exact le_trans hle (hstartge c hc)
      have hsep2 : (closure ++ [seg]).Pairwise Rsep :=
        pairwise_append_one inv.closure_sep hall
      have hgood2 : ∀ c ∈ closure ++ [seg], Good c := by
        intro c hc
        rcases List.mem_append.mp hc with hc | hc
        · exact inv.closure_good c hc
        · rcases List.mem_singleton.mp hc with rfl
          exact hGood
      have hfront2 : ∀ L ∈ closure ++ [seg],
          (∃ t, (some (effend top) : Option Time) = some t ∧ effend L ≤ t) ∨
          (∃ c, c ∈ rest ++ open_ended ∧ effend L ≤ c.time.start) := by
        intro L hL
        rcases List.mem_append.mp hL with hL | hL
        · exact hfrontier_old L hL
        · rcases List.mem_singleton.mp hL with rfl
          exact Or.inl ⟨effend top, rfl, hefflim (effend top) rfl⟩
      have hEOk2 : ∀ c ∈ closure ++ [seg], EmittedOk cfg S c := by
        intro c hc
        rcases List.mem_append.mp hc with hc | hc
        · exact inv.emitted_ok c hc
        · rcases List.mem_singleton.mp hc with rfl
          exact hEOk
      have hinv2 : Inv cfg S [] ⟨rest, open_ended, some (effend top), closure ++ [seg]⟩ :=
        ⟨hstack_sorted2, hstack_complete2, inv.open_none, hactive_mem2,
          hsep2, hgood2, hfront2, hlast_le_stack2, by simp, haccounted2, hEOk2⟩
      obtain ⟨l2, c2, heq, hinv3⟩ := ih (some (effend top)) (closure ++ [seg]) hinv2
      refine ⟨l2, c2, ?_, hinv3⟩
      rw [hstep, hlim, hrep]
      simpa using heq

theorem EmittedOk_congr (cfg : JobConfig) (S S2 : List Activity) (seg : Activity)
    (hmem : ∀ a, a ∈ S ↔ a ∈ S2) (h : EmittedOk cfg S seg) : EmittedOk cfg S2 seg := by
  obtain ⟨contribs, cls, h1, h2, h3, h4, h5, h6, h7⟩ := h
  exact ⟨contribs, cls, h1, fun a ha => (hmem a).mp (h2 a ha), h3, h4, h5, h6,
    fun a ha hact => h7 a ((hmem a).mpr ha) hact⟩

/-- Master theorem about the sweep (before window clamping): the emitted
closure is separated, every segment has positive duration, and every
segment satisfies `EmittedOk` over the input activity list. -/
theorem sweepRun_spec (cfg : JobConfig) (acts : List Activity)
    (hWF : ∀ a ∈ acts, WFa a) :
    (sweepRun cfg acts).Pairwise Rsep ∧ (∀ c ∈ sweepRun cfg acts, Good c) ∧
    (∀ c ∈ sweepRun cfg acts, EmittedOk cfg acts c) := by
  have hperm : (acts.insertionSort startLe).Perm acts := List.perm_insertionSort startLe acts
  have hmemS : ∀ a, a ∈ acts.insertionSort startLe ↔ a ∈ acts := fun a => hperm.mem_iff
  have hWFS : ∀ a ∈ acts.insertionSort startLe, WFa a :=
    fun a ha => hWF a ((hmemS a).mp ha)
  have hsorted : (acts.insertionSort startLe).Pairwise startLe :=
    List.sorted_insertionSort startLe acts
  have hinv0 : Inv cfg (acts.insertionSort startLe) (acts.insertionSort startLe)
      ⟨[], [], none, []⟩ := by
    refine ⟨List.Pairwise.nil, by simp, by simp, by simp, List.Pairwise.nil, by simp,
      by simp, ?_, ?_, ?_, by simp⟩
    · rintro t ht
      exact Option.noConfusion ht
    · rintro t ht
      exact Option.noConfusion ht
    · intro a ha
      exact Or.inl ha
  have hinv1 := foldl_inv cfg (acts.insertionSort startLe) hWFS
    (acts.insertionSort startLe) ⟨[], [], none, []⟩ (fun x hx => hx) hsorted hinv0
  set st1 := (acts.insertionSort startLe).foldl (processActivity cfg) ⟨[], [], none, []⟩
    with hst1
  obtain ⟨last2, closure2, hfd, hinv2⟩ :=
    finalDrain_inv cfg (acts.insertionSort startLe) hWFS st1.open_ended
      st1.stack st1.last_activity_end st1.closure hinv1
  have hout : sweepRun cfg acts =
      (if st1.open_ended.length > 0 then
        closure2 ++ (fold_report cfg [] st1.open_ended last2 none).toList
      else closure2) := by
    simp only [sweepRun, ← hst1, hfd]
  have hfinal : (sweepRun cfg acts).Pairwise Rsep ∧ (∀ c ∈ sweepRun cfg acts, Good c) ∧
      (∀ c ∈ sweepRun cfg acts, EmittedOk cfg (acts.insertionSort startLe) c) := by
    rw [hout]
    by_cases hop : st1.open_ended.length > 0
    case neg =>
      rw [if_neg hop]
      exact ⟨hinv2.closure_sep, hinv2.closure_good, hinv2.emitted_ok⟩
    case pos =>
      rw [if_pos hop]
      cases hrep : fold_report cfg [] st1.open_ended last2 none with
      | none =>
        simpa using ⟨hinv2.closure_sep, hinv2.closure_good, hinv2.emitted_ok⟩
      | some seg =>
        have haccount : ∀ a ∈ acts.insertionSort startLe, a ∈ [] ++ st1.open_ended ∨
            (∃ l, (none : Option Time) = some l ∧ l ≤ a.time.start) ∨
            (∃ t, last2 = some t ∧ effend a ≤ t) := by
          intro a haS
          rcases hinv2.accounted a haS with h | h | h
          · simp at h
          · rcases List.mem_append.mp h with h | h
            · simp at h
            · exact Or.inl (List.mem_append.mpr (Or.inr h))
          · exact Or.inr (Or.inr h)
        obtain ⟨hEOk, hGood, hlastle, hefflim, hstartge⟩ :=
          emission_ok cfg (acts.insertionSort startLe) [] st1.open_ended last2 none seg hrep
            hinv2.active_mem hinv2.open_none (by simp) (fun _ => rfl) haccount
        have hall : ∀ x ∈ closure2, Rsep x seg := by
          intro x hx
          rcases hinv2.frontier x hx with ⟨t, ht, hle⟩ | ⟨c, hc, hle⟩
          · exact le_trans hle (hlastle t ht)
          · exact le_trans hle (hstartge c hc)
        simp only [Option.toList_some]
        refine ⟨pairwise_append_one hinv2.closure_sep hall, ?_, ?_⟩
        · intro c hc
          rcases List.mem_append.mp hc with hc | hc
          · exact hinv2.closure_good c hc
          · rcases List.mem_singleton.mp hc with rfl
            exact hGood
        · intro c hc
          rcases List.mem_append.mp hc with hc | hc
          · exact hinv2.emitted_ok c hc
          · rcases List.mem_singleton.mp hc with rfl
            exact hEOk
  exact ⟨hfinal.1, hfinal.2.1, fun c hc =>
    EmittedOk_congr cfg _ acts c hmemS (hfinal.2.2 c hc)⟩

/-! ### Window clamp lemmas -/

theorem clampStartStage_facts (s? : Option Time) (a b : Activity)
    (h : clampStartStage s? a = some b) :
    a.time.start ≤ b.time.start ∧ b.time.end_ = a.time.end_ ∧
      b.class_ = a.class_ ∧ (Good a → Good b) := by
  cases s? with
  | none =>
    simp only [clampStartStage] at h
    cases h
    exact ⟨le_refl _, rfl, rfl, id⟩
  | some sv =>
    simp only [clampStartStage] at h
    split at h
    · exact Option.noConfusion h
    · split at h
      · cases h
        rename_i hdrop hmid
        refine ⟨le_of_lt hmid.1, rfl, rfl, fun _ => ?_⟩
        have : effend { a with time := { a.time with start := sv } } = effend a := rfl
        simpa [Good, this] using hmid.2
      · cases h
        exact ⟨le_refl _, rfl, rfl, id⟩

theorem clampEndStage_facts (e? : Option Time) (a b : Activity)
    (h : clampEndStage e? a = some b) :
    b.time.start = a.time.start ∧ effend b ≤ effend a ∧
      b.class_ = a.class_ ∧ (Good a → Good b) ∧
      (∀ ev, e? = some ev → ∀ x, b.time.end_ = some x → x ≤ ev) := by
  cases e? with
  | none =>
    simp only [clampEndStage] at h
    cases h
    exact ⟨rfl, le_refl _, rfl, id, fun ev hev => Option.noConfusion hev⟩
  | some ev =>
    simp only [clampEndStage] at h
    split at h
    · exact Option.noConfusion h
    · split at h
      · cases h
        rename_i hdrop hmid
        have heb : effend { a with time := { a.time with end_ := some ev } } = ev := by
          simp [effend, Interval.end_time_or_end_of_day]
        refine ⟨rfl, ?_, rfl, fun _ => ?_, ?_⟩
        · rw [heb]
          exact le_of_lt hmid.1
        · simpa [Good, heb] using hmid.2
        · rintro ev2 hev2 x hx
          cases hev2
          simp only at hx
          cases hx
          exact le_refl _
      · cases h
        rename_i hdrop hmid
        refine ⟨rfl, le_refl _, rfl, id, ?_⟩
        rintro ev2 hev2 x hx
        cases hev2
        rcases not_and_or.mp hmid with h' | h'
        · have hle : effend a ≤ ev := le_of_not_lt h'
          rw [show effend a = x by simp [effend, Interval.end_time_or_end_of_day, hx]] at hle
          exact hle
        · exact absurd (lt_of_not_ge hdrop) h'

theorem clampOne_facts (s? e? : Option Time) (a b : Activity)
    (h : clampOne s? e? a = some b) :
    a.time.start ≤ b.time.start ∧ effend b ≤ effend a ∧
      b.class_ = a.class_ ∧ (Good a → Good b) ∧
      (∀ ev, e? = some ev → ∀ x, b.time.end_ = some x → x ≤ ev) := by
  unfold clampOne at h
  cases h1 : clampStartStage s? a with
  | none => rw [h1] at h; exact Option.noConfusion h
  | some a1 =>
    rw [h1] at h
    simp only [Option.some_bind] at h
    obtain ⟨hs1, hs2, hs3, hs4⟩ := clampStartStage_facts s? a a1 h1
    obtain ⟨he1, he2, he3, he4, he5⟩ := clampEndStage_facts e? a1 b h
    have heff1 : effend a1 = effend a := by
      simp [effend, Interval.end_time_or_end_of_day, hs2]
    refine ⟨by rw [← he1] at hs1; exact hs1, by rw [← heff1]; exact he2,
      by rw [he3, hs3], fun hg => he4 (hs4 hg), he5⟩

theorem clampOne_start_bound (sv : Time) (e? : Option Time) (a b : Activity)
    (h : clampOne (some sv) e? a = some b)
    (hb : ∀ ev, e? = some ev → sv < ev) :
    sv ≤ b.time.start ∨ (effend b = sv ∧ b.time.start < sv) := by
  unfold clampOne at h
  cases h1 : clampStartStage (some sv) a with
  | none => rw [h1] at h; exact Option.noConfusion h
  | some a1 =>
    rw [h1] at h
    simp only [Option.some_bind] at h
    obtain ⟨he1, he2, he3, he4, he5⟩ := clampEndStage_facts e? a1 b h
    -- analyze the start stage
    have hcase : sv ≤ a1.time.start ∨ (effend a1 = sv ∧ a1.time.start < sv) := by
      simp only [clampStartStage] at h1
      split at h1
      · exact Option.noConfusion h1
      · split at h1
        · rw [Option.some.injEq] at h1
          subst h1
          exact Or.inl (le_refl _)
        · rw [Option.some.injEq] at h1
          subst h1
          rename_i hdrop hmid
          by_cases hstart : sv ≤ a.time.start
          · exact Or.inl hstart
          · refine Or.inr ⟨?_, lt_of_not_ge hstart⟩
            rcases not_and_or.mp hmid with h' | h'
            · exact absurd (lt_of_not_ge hstart) h'
            · exact le_antisymm (le_of_not_lt h') (le_of_not_lt hdrop)
    rcases hcase with hcase | ⟨hcase1, hcase2⟩
    · exact Or.inl (by rw [he1]; exact hcase)
    · -- effend a1 = sv: the end stage cannot modify it because sv < ev
      refine Or.inr ⟨?_, by rw [he1]; exact hcase2⟩
      cases e? with
      | none =>
        simp only [clampEndStage] at h
        cases h
        exact hcase1
      | some ev =>
        have hsvev := hb ev rfl
        simp only [clampEndStage] at h
        split at h
        · exact Option.noConfusion h
        · split at h
          · rename_i hdrop hmid
            have hme : a1.time.end_time_or_end_of_day = sv := hcase1
            rw [hme] at hmid
            exact absurd hmid.1 (lt_asymm hsvev)
          · cases h
            exact hcase1

theorem clampClosure_sep (s? e? : Option Time) (l : List Activity) (hp : l.Pairwise Rsep) :
    (clampClosure s? e? l).Pairwise Rsep := by
  unfold clampClosure
  induction l with
  | nil => simp
  | cons a l ih =>
    obtain ⟨ha, hp2⟩ := List.pairwise_cons.mp hp
    cases hfa : clampOne s? e? a with
    | none => simpa [List.filterMap_cons, hfa] using ih hp2
    | some b =>
      simp only [List.filterMap_cons, hfa]
      refine List.pairwise_cons.mpr ⟨?_, ih hp2⟩
      intro y hy
      obtain ⟨x, hx, hfx⟩ := List.mem_filterMap.mp hy
      obtain ⟨hx1, hx2, -, -, -⟩ := clampOne_facts s? e? x y hfx
      obtain ⟨-, hb2, -, -, -⟩ := clampOne_facts s? e? a b hfa
      exact le_trans hb2 (le_trans (ha x hx) hx1)

theorem clampClosure_good (s? e? : Option Time) (l : List Activity)
    (hg : ∀ c ∈ l, Good c) : ∀ c ∈ clampClosure s? e? l, Good c := by
  intro c hc
  obtain ⟨x, hx, hfx⟩ := List.mem_filterMap.mp hc
  obtain ⟨-, -, -, hgood, -⟩ := clampOne_facts s? e? x c hfx
  exact hgood (hg x hx)

/-- Every segment of the final output originates from a segment of the
unclamped sweep via `clampOne` (which is the identity when no bounds are
given), and the early-empty guard did not fire. -/
theorem calculate_mem (cfg : JobConfig) (acts : List Activity) (s e : Option Time)
    (b : Activity) (hb : b ∈ Activity.calculate_activity_closure cfg acts s e) :
    earlyEmpty s e = false ∧ ∃ a ∈ sweepRun cfg acts, clampOne s e a = some b := by
  unfold Activity.calculate_activity_closure at hb
  split at hb
  · simp at hb
  · rename_i hearly
    refine ⟨by simpa using hearly, ?_⟩
    split at hb
    · rename_i hnone
      obtain ⟨hs, he⟩ := Bool.and_eq_true_iff.mp hnone
      have hs2 : s = none := Option.isNone_iff_eq_none.mp hs
      have he2 : e = none := Option.isNone_iff_eq_none.mp he
      subst hs2
      subst he2
      exact ⟨b, hb, rfl⟩
    · obtain ⟨a, ha, hfa⟩ := List.mem_filterMap.mp hb
      exact ⟨a, ha, hfa⟩

theorem calculate_sep (cfg : JobConfig) (acts : List Activity) (s e : Option Time)
    (hWF : ∀ a ∈ acts, WFa a) :
    (Activity.calculate_activity_closure cfg acts s e).Pairwise Rsep ∧
    (∀ c ∈ Activity.calculate_activity_closure cfg acts s e, Good c) := by
  obtain ⟨hsep, hgood, -⟩ := sweepRun_spec cfg acts hWF
  unfold Activity.calculate_activity_closure
  split
  · simp
  · split
    · exact ⟨hsep, hgood⟩
    · exact ⟨clampClosure_sep s e _ hsep, clampClosure_good s e _ hgood⟩

theorem find_id_of_nodup (classes : List ActivityClass)
    (hnd : (classes.map (fun c => c.id)).Nodup) (cls : ActivityClass) (hcls : cls ∈ classes) :
    classes.find? (fun c => c.identifier_matches (Identifier.uuid cls.id)) = some cls := by
  induction classes with
  | nil => simp at hcls
  | cons c rest ih =>
    simp only [List.map_cons, List.nodup_cons] at hnd
    rcases List.mem_cons.mp hcls with rfl | hcls
    · have hpc : cls.identifier_matches (Identifier.uuid cls.id) = true := by
        simp [ActivityClass.identifier_matches]
      simp [List.find?, hpc]
    · have hneq : c.id ≠ cls.id := by
        intro heq
        exact hnd.1 (heq ▸ List.mem_map_of_mem (fun c => c.id) hcls)
      have hpc : c.identifier_matches (Identifier.uuid cls.id) = false := by
        simp [ActivityClass.identifier_matches, hneq]
      simp only [List.find?, hpc]
      exact ih hnd.2 hcls

theorem resolvedPrio_uuid (cfg : JobConfig)
    (hnd : (cfg.classes.map (fun c => c.id)).Nodup) (cls : ActivityClass)
    (hcls : cls ∈ cfg.classes ∨ cls = cfg.lowest_priority_class) :
    resolvedPrio cfg (Identifier.uuid cls.id) = cls.inner.priority := by
  rcases hcls with hcls | rfl
  · unfold resolvedPrio JobConfig.resolve_class
    rw [find_id_of_nodup cfg.classes hnd cls hcls]
    rfl
  · by_cases hne : cfg.classes = []
    · unfold resolvedPrio JobConfig.resolve_class
      rw [hne]
      rfl
    · unfold resolvedPrio JobConfig.resolve_class
      rw [find_id_of_nodup cfg.classes hnd _ (lowest_priority_class_mem cfg hne)]
      rfl

theorem namesAccF_cons (a : Activity) (l : List Activity) (ns : List String) :
    namesAccF (a :: l) ns = namesAccF l
      (match a.name with
       | some n => if ns.contains n then ns else ns ++ [n]
       | none => ns) := rfl

theorem namesAccF_mem (l : List Activity) : ∀ (ns : List String) (x : String),
    x ∈ namesAccF l ns ↔ x ∈ ns ∨ ∃ a ∈ l, a.name = some x := by
  induction l with
  | nil =>
    intro ns x
    simp [namesAccF]
  | cons a l ih =>
    intro ns x
    rw [namesAccF_cons]
    cases ha : a.name with
    | none =>
      rw [ih]
      simp [ha]
    | some n =>
      by_cases hc : ns.contains n
      · simp only [if_pos hc]
        rw [ih]
        constructor
        · rintro (hx | hx)
          · exact Or.inl hx
          · exact Or.inr (by
              obtain ⟨b, hb, hbx⟩ := hx
              exact ⟨b, List.mem_cons_of_mem _ hb, hbx⟩)
        · rintro (hx | ⟨b, hb, hbx⟩)
          · exact Or.inl hx
          · rcases List.mem_cons.mp hb with rfl | hb
            · rw [ha] at hbx
              cases hbx
              exact Or.inl (by
                have := List.elem_iff.mp hc
                exact this)
            · exact Or.inr ⟨b, hb, hbx⟩
      · simp only [if_neg hc]
        rw [ih]
        constructor
        · rintro (hx | hx)
          · rcases List.mem_append.mp hx with hx | hx
            · exact Or.inl hx
            · rcases List.mem_singleton.mp hx with rfl
              exact Or.inr ⟨a, by simp, ha⟩
          · obtain ⟨b, hb, hbx⟩ := hx
            exact Or.inr ⟨b, List.mem_cons_of_mem _ hb, hbx⟩
        · rintro (hx | ⟨b, hb, hbx⟩)
          · exact Or.inl (List.mem_append.mpr (Or.inl hx))
          · rcases List.mem_cons.mp hb with rfl | hb
            · rw [ha] at hbx
              cases hbx
              exact Or.inl (List.mem_append.mpr (Or.inr (by simp)))
            · exact Or.inr ⟨b, hb, hbx⟩

theorem namesAccF_nodup (l : List Activity) : ∀ ns : List String, ns.Nodup →
    (namesAccF l ns).Nodup := by
  induction l with
  | nil =>
    intro ns h
    simpa [namesAccF] using h
  | cons a l ih =>
    intro ns h
    rw [namesAccF_cons]
    cases ha : a.name with
    | none => exact ih ns h
    | some n =>
      by_cases hc : ns.contains n
      · simp only [if_pos hc]
        exact ih ns h
      · simp only [if_neg hc]
        refine ih _ ?_
        rw [List.nodup_append]
        refine ⟨h, List.nodup_singleton n, ?_⟩
        intro x hx hxn
        rcases List.mem_singleton.mp hxn with rfl
        exact hc (List.elem_iff.mpr hx)

/-! ### Claim theorems -/

/-- C1: the claim states the merged end (before upper-bound clamping) is the
minimum defined end among contributors.  The code instead keeps the end of
the last-iterated contributor: on contributors ending at 5 and 10 (iterated
in that order) it produces 10, while the minimum defined end is 5.  This
contradicts the function's own doc comment ("the smallest end time is
used"): a code bug. -/
theorem C1_merged_end_defect :
    (Activity.fold_inner cfg1 [actE5, actE10] none none).map (fun a => a.time.end_) =
      some (some t10) ∧
    specMergedEnd [actE5, actE10] = some t5 ∧
    (t10 : Time) ≠ t5 := by
  decide

/-- C2 (amended): for inputs whose activities are well-formed (each defined
end is at or after its start), the closure returned by
calculate_activity_closure is strictly ordered by start time and no two
output segments overlap (each segment's effective end is at most every later
segment's start). -/
theorem C2_closure_ordered (cfg : JobConfig) (acts : List Activity) (s e : Option Time)
    (hWF : ∀ a ∈ acts, WFa a) :
    (Activity.calculate_activity_closure cfg acts s e).Pairwise startLt ∧
    (Activity.calculate_activity_closure cfg acts s e).Pairwise Rsep := by
  obtain ⟨hsep, hgood⟩ := calculate_sep cfg acts s e hWF
  refine ⟨?_, hsep⟩
  refine List.Pairwise.imp_of_mem ?_ hsep
  intro a b ha hb hr
  exact lt_of_lt_of_le (hgood a ha) hr

/-- C2 counterexample: with a malformed input activity (end before start,
which the spec says is expected of input data but not enforced), the closure
contains overlapping segments. -/
theorem C2_counterexample :
    ¬ ((Activity.calculate_activity_closure cfg1 [actZ, actX] none none).Pairwise startLt ∧
       (Activity.calculate_activity_closure cfg1 [actZ, actX] none none).Pairwise Rsep) := by
  decide

/-- C2 witness: the amended theorem applied to a concrete well-formed
input. -/
theorem C2_witness :
    (Activity.calculate_activity_closure cfg1 [actE5, actE10] none none).Pairwise startLt ∧
    (Activity.calculate_activity_closure cfg1 [actE5, actE10] none none).Pairwise Rsep :=
  C2_closure_ordered cfg1 [actE5, actE10] none none (by decide)

/-- C3 (amended): when the input activities are well-formed and the registry
classes carry pairwise distinct uuids, the resolved priority of every
produced segment's classification dominates the resolved priority of every
input activity active during (overlapping) that segment; unresolvable
references count with the registry's lowest priority (via resolvedPrio). -/
theorem C3_priority_dominates (cfg : JobConfig) (acts : List Activity) (s e : Option Time)
    (hWF : ∀ a ∈ acts, WFa a)
    (hnd : (cfg.classes.map (fun c => c.id)).Nodup) :
    ∀ seg ∈ Activity.calculate_activity_closure cfg acts s e,
      ∀ a ∈ acts, activeDuring a seg →
        resolvedPrio cfg a.class_ ≤ resolvedPrio cfg seg.class_ := by
  intro seg hseg a ha hact
  obtain ⟨-, seg0, hseg0, hclamp⟩ := calculate_mem cfg acts s e seg hseg
  obtain ⟨-, -, hEOk⟩ := sweepRun_spec cfg acts hWF
  obtain ⟨contribs, cls, -, -, -, hclass, hclsmem, hprio, hcomplete⟩ := hEOk seg0 hseg0
  obtain ⟨hc1, hc2, hc3, -, -⟩ := clampOne_facts s e seg0 seg hclamp
  have hact0 : activeDuring a seg0 := ⟨lt_of_lt_of_le hact.1 hc2, lt_of_le_of_lt hc1 hact.2⟩
  have hple := hprio a (hcomplete a ha hact0)
  rw [hc3, hclass, resolvedPrio_uuid cfg hnd cls hclsmem]
  exact hple

/-- C3 counterexample: the claim as stated fails (1) on a registry in which
two classes share one uuid (the segment's class reference resolves to the
wrong class), and (2) on a malformed input activity (end before start),
which lets a high-priority activity overlap a low-priority segment without
having contributed to it. -/
theorem C3_counterexample :
    (¬ ∀ seg ∈ Activity.calculate_activity_closure cfgDup [actDup] none none,
       ∀ a ∈ [actDup], activeDuring a seg →
         resolvedPrio cfgDup a.class_ ≤ resolvedPrio cfgDup seg.class_) ∧
    (¬ ∀ seg ∈ Activity.calculate_activity_closure cfg1 [bHigh, oLow, mBad, cAct] none none,
       ∀ a ∈ [bHigh, oLow, mBad, cAct], activeDuring a seg →
         resolvedPrio cfg1 a.class_ ≤ resolvedPrio cfg1 seg.class_) := by
  decide

/-- C3 witness: the amended theorem applied to a concrete input. -/
theorem C3_witness :
    resolvedPrio cfg1 actE5.class_ ≤
      resolvedPrio cfg1 (⟨0, none, .uuid 1, ⟨t1, some t5⟩, []⟩ : Activity).class_ :=
  C3_priority_dominates cfg1 [actE5] none none (by decide) (by decide)
    ⟨0, none, .uuid 1, ⟨t1, some t5⟩, []⟩ (by decide) actE5 (by decide) (by decide)

/-- C4: fold_inner returns none exactly when the contributor collection is
empty or the clamped merged end exists and is earlier than the clamped
merged start; and whenever it returns a segment with a defined end, the
segment's start is at most that end. -/
theorem C4_fold_none_iff (cfg : JobConfig) (acts : List Activity) (s e : Option Time) :
    (Activity.fold_inner cfg acts s e = none ↔
      acts = [] ∨ ∃ st0 x, startAccF acts none = some st0 ∧
        clamp_end (endAccF acts none) e = some x ∧ x < clamp_start st0 s) ∧
    (∀ seg, Activity.fold_inner cfg acts s e = some seg →
      ∀ x, seg.time.end_ = some x → seg.time.start ≤ x) := by
  refine ⟨fold_inner_eq_none_iff cfg acts s e, ?_⟩
  intro seg hseg x hx
  obtain ⟨st0, hst0, hle, hsegeq⟩ := (fold_inner_eq_some_iff cfg acts s e seg).mp hseg
  have htime : seg.time = ⟨clamp_start st0 s, clamp_end (endAccF acts none) e⟩ := by
    rw [hsegeq]
    exact mkFolded_time _ _ _ _ _
  have hend : clamp_end (endAccF acts none) e = some x := by
    rw [← hx, htime]
  have hstart : seg.time.start = clamp_start st0 s := by rw [htime]
  rw [hstart]
  exact hle x hend

/-- C4 witness: the empty contributor collection yields none. -/
theorem C4_witness : Activity.fold_inner cfg1 [] none none = none :=
  (C4_fold_none_iff cfg1 [] none none).1.mpr (Or.inl rfl)

/-- C5 (amended): after window clamping, every produced segment starts at or
after the supplied lower bound UNLESS its effective end equals that bound (a
segment ending exactly at the window start is kept whole, unclamped); and
every defined segment end is at most the supplied upper bound. -/
theorem C5_window_containment (cfg : JobConfig) (acts : List Activity) (s e : Option Time) :
    ∀ seg ∈ Activity.calculate_activity_closure cfg acts s e,
      (∀ sv, s = some sv → sv ≤ seg.time.start ∨ effend seg = sv) ∧
      (∀ ev, e = some ev → ∀ x, seg.time.end_ = some x → x ≤ ev) := by
  intro seg hseg
  obtain ⟨hearly, seg0, hseg0, hclamp⟩ := calculate_mem cfg acts s e seg hseg
  obtain ⟨-, -, -, -, hend⟩ := clampOne_facts s e seg0 seg hclamp
  refine ⟨?_, hend⟩
  rintro sv rfl
  have hb : ∀ ev, e = some ev → sv < ev := by
    rintro ev rfl
    exact lt_of_not_ge (by simpa [earlyEmpty] using hearly)
  rcases clampOne_start_bound sv e seg0 seg hclamp hb with h | ⟨h, -⟩
  · exact Or.inl h
  · exact Or.inr h

/-- C5 counterexample: a segment whose effective end equals the window start
is kept entirely, with its start below the bound. -/
theorem C5_counterexample :
    ¬ ∀ seg ∈ Activity.calculate_activity_closure cfg1 [act5_10] (some t10) none,
        t10 ≤ seg.time.start := by
  decide

/-- C5 witness: the amended theorem applied to a concrete input. -/
theorem C5_witness :
    t3 ≤ (⟨0, none, .uuid 1, ⟨t5, some t10⟩, []⟩ : Activity).time.start ∨
      effend (⟨0, none, .uuid 1, ⟨t5, some t10⟩, []⟩ : Activity) = t3 :=
  (C5_window_containment cfg1 [act5_10] (some t3) none
    ⟨0, none, .uuid 1, ⟨t5, some t10⟩, []⟩ (by decide)).1 t3 rfl

/-- C6 (amended): the segment's name is the lexicographically sorted,
de-duplicated list of contributor names joined with "; " (none when no
contributor had a name); the segment's projects list is the sorted
concatenation of the contributors' project references WITH duplicates
retained (the code does not de-duplicate projects). -/
theorem C6_merge_names_projects (cfg : JobConfig) (acts : List Activity) (s e : Option Time)
    (seg : Activity) (h : Activity.fold_inner cfg acts s e = some seg) :
    (∃ ns : List String,
      ns.Pairwise strLe ∧ ns.Nodup ∧
      (∀ x, x ∈ ns ↔ ∃ a ∈ acts, a.name = some x) ∧
      (ns = [] → seg.name = none) ∧
      (ns ≠ [] → seg.name = some (String.intercalate "; " ns))) ∧
    seg.projects.Pairwise idLe ∧ seg.projects.Perm (projAcc acts) := by
  obtain ⟨st0, hst0, -, hsegeq⟩ := (fold_inner_eq_some_iff cfg acts s e seg).mp h
  have hname : seg.name =
      (if ((namesAccF acts []).insertionSort strLe).length == 0 then none
       else some (String.intercalate "; " ((namesAccF acts []).insertionSort strLe))) := by
    rw [hsegeq]
    rfl
  have hproj : seg.projects = (projAcc acts).insertionSort idLe := by
    rw [hsegeq]
    rfl
  have hperm : ((namesAccF acts []).insertionSort strLe).Perm (namesAccF acts []) :=
    List.perm_insertionSort strLe (namesAccF acts [])
  refine ⟨⟨(namesAccF acts []).insertionSort strLe,
    List.sorted_insertionSort strLe (namesAccF acts []), ?_, ?_, ?_, ?_⟩, ?_, ?_⟩
  · exact hperm.nodup_iff.mpr (namesAccF_nodup acts [] List.nodup_nil)
  · intro x
    rw [hperm.mem_iff, namesAccF_mem acts [] x]
    simp
  · intro hnil
    rw [hname, hnil]
    rfl
  · intro hnnil
    rw [hname]
    have hlen : (((namesAccF acts []).insertionSort strLe).length == 0) = false := by
      rw [beq_eq_false_iff_ne]
      intro hzero
      exact hnnil (List.length_eq_zero.mp hzero)
    rw [hlen]
    simp
  · rw [hproj]
    exact List.sorted_insertionSort idLe (projAcc acts)
  · rw [hproj]
    exact List.perm_insertionSort idLe (projAcc acts)

/-- C6 counterexample: two contributors sharing one project reference yield
a projects list with the duplicate retained, not the de-duplicated union the
claim states. -/
theorem C6_counterexample :
    (Activity.fold_inner cfg1 [actP1, actP2] none none).map (fun a => a.projects) =
      some [Identifier.uuid 7, Identifier.uuid 7] ∧
    specDedupProjects [actP1, actP2] = [Identifier.uuid 7] ∧
    ([Identifier.uuid 7, Identifier.uuid 7] : List Identifier) ≠ [Identifier.uuid 7] := by
  decide

/-- C6 witness: the amended theorem applied to a concrete input. -/
theorem C6_witness :
    (⟨0, none, .uuid 1, ⟨t1, some t3⟩, [.uuid 7, .uuid 7]⟩ : Activity).projects.Pairwise idLe ∧
    (⟨0, none, .uuid 1, ⟨t1, some t3⟩, [.uuid 7, .uuid 7]⟩ : Activity).projects.Perm
      (projAcc [actP1, actP2]) :=
  (C6_merge_names_projects cfg1 [actP1, actP2] none none
    ⟨0, none, .uuid 1, ⟨t1, some t3⟩, [.uuid 7, .uuid 7]⟩ (by decide)).2

/-- C7: for every successful fold, the segment's start is the maximum start
time among the contributors (attained by one of them and an upper bound for
all), except that a supplied lower bound raises it (clamp_start). -/
theorem C7_start_is_clamped_max (cfg : JobConfig) (acts : List Activity) (s e : Option Time)
    (seg : Activity) (m : Time)
    (h : Activity.fold_inner cfg acts s e = some seg)
    (hm : startAccF acts none = some m) :
    (∃ a ∈ acts, a.time.start = m) ∧ (∀ a ∈ acts, a.time.start ≤ m) ∧
      seg.time.start = clamp_start m s := by
  obtain ⟨st0, hst0, -, hsegeq⟩ := (fold_inner_eq_some_iff cfg acts s e seg).mp h
  rw [hst0] at hm
  injection hm with hm
  subst hm
  obtain ⟨hatt, hub⟩ := startAccF_spec acts _ hst0
  refine ⟨hatt, hub, ?_⟩
  rw [hsegeq]
  rfl

/-- C7 witness: the theorem applied to a concrete input. -/
theorem C7_witness :
    (⟨0, none, .uuid 1, ⟨t2, some t10⟩, []⟩ : Activity).time.start = clamp_start t2 none :=
  (C7_start_is_clamped_max cfg1 [actE5, actE10] none none
    ⟨0, none, .uuid 1, ⟨t2, some t10⟩, []⟩ t2 (by decide) (by decide)).2.2

/-- C8: an unresolvable classification reference is substituted by the
registry's lowest-priority class, and whether fold_inner returns a result is
unaffected (it depends only on the interval conditions, never on class
resolution: no abort, no error). -/
theorem C8_unresolved_class_recovered (cfg : JobConfig) (acts : List Activity)
    (s e : Option Time) (a : Activity) (_ha : a ∈ acts)
    (hun : cfg.resolve_class a.class_ = none) :
    resolved_class cfg a = cfg.lowest_priority_class ∧
    ((Activity.fold_inner cfg acts s e).isSome = true ↔
      ¬ (acts = [] ∨ ∃ st0 x, startAccF acts none = some st0 ∧
        clamp_end (endAccF acts none) e = some x ∧ x < clamp_start st0 s)) := by
  constructor
  · unfold resolved_class
    rw [hun]
    rfl
  · rw [← fold_inner_eq_none_iff cfg acts s e]
    cases Activity.fold_inner cfg acts s e <;> simp

/-- C8 witness: the theorem applied to a concrete activity whose class name
is absent from the registry. -/
theorem C8_witness : resolved_class cfg1 actU = cfg1.lowest_priority_class :=
  (C8_unresolved_class_recovered cfg1 [actU] none none actU (by decide) (by decide)).1

/-- C9: calculate_activity_closure is a pure function of the registry, the
input activity list and the bounds: equal inputs give equal output
sequences (synthesized segment identities, random in the source, are
excluded from the model per the spec's no-identity-stability note). -/
theorem C9_deterministic (cfg cfg2 : JobConfig) (acts acts2 : List Activity)
    (s s2 e e2 : Option Time)
    (h1 : cfg = cfg2) (h2 : acts = acts2) (h3 : s = s2) (h4 : e = e2) :
    Activity.calculate_activity_closure cfg acts s e =
      Activity.calculate_activity_closure cfg2 acts2 s2 e2 := by
  subst h1
  subst h2
  subst h3
  subst h4
  rfl

/-- C9 witness: two evaluations on a fixed input coincide. -/
theorem C9_witness :
    Activity.calculate_activity_closure cfg1 [actE5] none none =
      Activity.calculate_activity_closure cfg1 [actE5] none none :=
  C9_deterministic cfg1 cfg1 [actE5] [actE5] none none none none rfl rfl rfl rfl

/-- C10: when an upper time bound is supplied and fold_inner returns a
segment, the segment's end is always defined and at most the bound. -/
theorem C10_upper_bound_forces_end (cfg : JobConfig) (acts : List Activity)
    (s : Option Time) (l : Time) (seg : Activity)
    (h : Activity.fold_inner cfg acts s (some l) = some seg) :
    seg.time.end_.isSome = true ∧ ∀ x, seg.time.end_ = some x → x ≤ l := by
  obtain ⟨st0, hst0, -, hsegeq⟩ := (fold_inner_eq_some_iff cfg acts s (some l) seg).mp h
  obtain ⟨x, hx, hxle⟩ := clamp_end_some_limit (endAccF acts none) l
  have hend : seg.time.end_ = some x := by
    have htime : seg.time = ⟨clamp_start st0 s, clamp_end (endAccF acts none) (some l)⟩ := by
      rw [hsegeq]
      exact mkFolded_time _ _ _ _ _
    rw [htime]
    exact hx
  refine ⟨by rw [hend]; rfl, ?_⟩
  intro y hy
  rw [hend] at hy
  injection hy with hy
  subst hy
  exact hxle

/-- C10 witness: the theorem applied to a concrete input. -/
theorem C10_witness :
    (⟨0, none, .uuid 1, ⟨t1, some t3⟩, []⟩ : Activity).time.end_.isSome = true :=
  (C10_upper_bound_forces_end cfg1 [actE5] none t3
    ⟨0, none, .uuid 1, ⟨t1, some t3⟩, []⟩ (by decide)).1

end Timetrax
